import Mathlib

/-!
Verification of the Plonk-library core (KZG commitments, radix-2 FFT, and the
arithmetic-circuit model) against its natural-language specification.

The Rust sources are shallowly embedded:
* `fft.rs` — `reverse_bits`, `fft`, `ifft`, `interpolate` over an abstract field `K`;
  the in-place loops become explicit folds over `List K`, and every `panic!` /
  failed `assert!` / out-of-bounds index / `unwrap` on `None` becomes the
  `PanicOr.panicked` constructor.
* `kgz.rs` — `KZGParams` (`setup`, `commit`, `open`, `verify`) over an abstract
  commutative ring of scalars `K` and abstract `K`-modules `G1`, `G2`, `GT` with a
  caller-supplied pairing function (the curve arithmetic is an external, trusted
  library in the source; bilinearity is taken as a hypothesis exactly as the spec
  states it).
* `circuit.rs` — the circuit over its own wrapping 64-bit scalar type
  (`Fin (2 ^ 64)`, whose `+`/`*` are addition and multiplication modulo `2 ^ 64`,
  matching `u64::wrapping_add` / `wrapping_mul`).
-/

/-- Result of running a piece of Rust code that may `panic!` (or fail an
assertion, index out of bounds, or `unwrap` a `None`): either a value or a
process-terminating panic carrying its message.  The source never returns
`Result` values, so a distinct error-value constructor is deliberately absent —
all failures in this code base are panics. -/
inductive PanicOr (α : Type) where
  | ok : α → PanicOr α
  | panicked : String → PanicOr α
deriving DecidableEq, Repr

/-- Sequencing of possibly-panicking computations (a panic aborts the rest). -/
def PanicOr.bind {α β : Type} : PanicOr α → (α → PanicOr β) → PanicOr β
  | .ok a, f => f a
  | .panicked m, _ => .panicked m

/-! ## Bit-reversal (`fft.rs`, `fn reverse_bits`) -/

/-- Embedding of `fft.rs`'s `reverse_bits(num, bits)`: the loop over
`i in 0..bits` ors the bit `1 << (bits - 1 - i)` into `result` whenever
`num & (1 << i)` is non-zero. -/
def reverse_bits (num : Nat) (bits : Nat) : Nat :=
  (List.range bits).foldl
    (fun result i =>
      if num &&& (1 <<< i) ≠ 0 then result ||| (1 <<< (bits - 1 - i)) else result)
    0

theorem and_one_shiftLeft_ne_zero (num i : Nat) :
    (num &&& (1 <<< i) ≠ 0) ↔ num.testBit i = true := by
  constructor
  · intro h
    by_contra hbit
    apply h
    apply Nat.eq_of_testBit_eq
    intro j
    rw [Nat.zero_testBit, Nat.testBit_and, Nat.one_shiftLeft, Nat.testBit_two_pow]
    rcases eq_or_ne i j with rfl | hij
    · simpa using hbit
    · simp [hij]
  · intro h hzero
    have := congrArg (fun x => x.testBit i) hzero
    simp only [Nat.testBit_and, Nat.one_shiftLeft, Nat.testBit_two_pow, Nat.zero_testBit] at this
    rw [h] at this
    simp at this

theorem reverse_bits_fold_testBit (num bits : Nat) (l : List Nat) (acc : Nat) (p : Nat) :
    ((l.foldl
      (fun result i =>
        if num &&& (1 <<< i) ≠ 0 then result ||| (1 <<< (bits - 1 - i)) else result)
      acc).testBit p = true) ↔
    (acc.testBit p = true ∨ ∃ i ∈ l, num.testBit i = true ∧ p = bits - 1 - i) := by
  induction l generalizing acc with
  | nil => simp
  | cons i l ih =>
    simp only [List.foldl_cons]
    rw [ih]
    constructor
    · rintro (hstep | hrest)
      · by_cases hc : num &&& (1 <<< i) ≠ 0
        · rw [if_pos hc, Nat.testBit_or, Bool.or_eq_true, Nat.one_shiftLeft,
              Nat.testBit_two_pow] at hstep
          rcases hstep with h | h
          · exact Or.inl h
          · exact Or.inr ⟨i, by simp, (and_one_shiftLeft_ne_zero num i).mp hc, by
              have hh := of_decide_eq_true h; omega⟩
        · rw [if_neg hc] at hstep
          exact Or.inl hstep
      · rcases hrest with ⟨j, hj, hbit, hp⟩
        exact Or.inr ⟨j, by simp [hj], hbit, hp⟩
    · rintro (hacc | ⟨j, hj, hbit, hp⟩)
      · left
        by_cases hc : num &&& (1 <<< i) ≠ 0
        · rw [if_pos hc, Nat.testBit_or, hacc]
          simp
        · rwa [if_neg hc]
      · rcases List.mem_cons.mp hj with rfl | hjl
        · left
          rw [if_pos ((and_one_shiftLeft_ne_zero num j).mpr hbit)]
          rw [Nat.testBit_or, Nat.one_shiftLeft, Nat.testBit_two_pow]
          simp [hp]
        · exact Or.inr ⟨j, hjl, hbit, hp⟩

/-- Characterization of `reverse_bits`: bit `p` of the result is bit
`bits - 1 - p` of `num` for `p < bits`, and `0` above. -/
theorem reverse_bits_testBit (num bits p : Nat) :
    (reverse_bits num bits).testBit p =
      (decide (p < bits) && num.testBit (bits - 1 - p)) := by
  have hiff : ((reverse_bits num bits).testBit p = true) ↔
      ((0 : Nat).testBit p = true ∨
        ∃ i ∈ List.range bits, num.testBit i = true ∧ p = bits - 1 - i) :=
    reverse_bits_fold_testBit num bits (List.range bits) 0 p
  rw [Nat.zero_testBit] at hiff
  have hmain : (reverse_bits num bits).testBit p = true ↔
      (p < bits ∧ num.testBit (bits - 1 - p) = true) := by
    rw [hiff]
    constructor
    · rintro (h | ⟨i, hi, hbit, hp⟩)
      · exact absurd h (by simp)
      · simp only [List.mem_range] at hi
        refine ⟨by omega, ?_⟩
        have he : bits - 1 - p = i := by omega
        rw [he]
        exact hbit
    · rintro ⟨hp, hbit⟩
      right
      exact ⟨bits - 1 - p, by simp only [List.mem_range]; omega, hbit, by omega⟩
  cases hb : (reverse_bits num bits).testBit p with
  | false =>
    cases hR : (decide (p < bits) && num.testBit (bits - 1 - p)) with
    | false => rfl
    | true =>
      exfalso
      rw [Bool.and_eq_true, decide_eq_true_eq] at hR
      have := hmain.mpr ⟨hR.1, hR.2⟩
      rw [hb] at this
      exact Bool.noConfusion this
  | true =>
    obtain ⟨hp, hbit⟩ := hmain.mp hb
    simp [hp, hbit]

theorem reverse_bits_lt (num bits : Nat) : reverse_bits num bits < 2 ^ bits := by
  apply Nat.lt_pow_two_of_testBit
  intro p hp
  rw [reverse_bits_testBit]
  have : decide (p < bits) = false := by simp; omega
  rw [this, Bool.false_and]

theorem reverse_bits_involution (i bits : Nat) (h : i < 2 ^ bits) :
    reverse_bits (reverse_bits i bits) bits = i := by
  apply Nat.eq_of_testBit_eq
  intro p
  rw [reverse_bits_testBit]
  by_cases hp : p < bits
  · rw [reverse_bits_testBit]
    have h1 : decide (p < bits) = true := by simp [hp]
    have h2 : decide (bits - 1 - p < bits) = true := by simp; omega
    have h3 : bits - 1 - (bits - 1 - p) = p := by omega
    rw [h1, h2, Bool.true_and, Bool.true_and, h3]
  · have h1 : decide (p < bits) = false := by simp; omega
    rw [h1, Bool.false_and]
    have : i < 2 ^ p := lt_of_lt_of_le h (Nat.pow_le_pow_right (by omega) (by omega))
    exact (Nat.testBit_lt_two_pow this).symm

theorem reverse_bits_two_mul (q k : Nat) :
    reverse_bits (2 * q) (k + 1) = reverse_bits q k := by
  apply Nat.eq_of_testBit_eq
  intro p
  rw [reverse_bits_testBit, reverse_bits_testBit]
  by_cases hp : p < k
  · have h1 : decide (p < k + 1) = true := by simp; omega
    have h2 : decide (p < k) = true := by simp [hp]
    rw [h1, h2, Bool.true_and, Bool.true_and]
    have hk : k + 1 - 1 - p = (k - 1 - p) + 1 := by omega
    rw [hk, Nat.testBit_succ]
    have hd : 2 * q / 2 = q := by omega
    rw [hd]
  · by_cases hpk : p = k
    · subst hpk
      have h1 : decide (p < p + 1) = true := by simp
      have h2 : decide (p < p) = false := by simp
      rw [h1, h2, Bool.true_and, Bool.false_and]
      have he : p + 1 - 1 - p = 0 := by omega
      rw [he, Nat.testBit_zero]
      have hmod : 2 * q % 2 = 0 := by omega
      simp [hmod]
    · have h1 : decide (p < k + 1) = false := by simp; omega
      have h2 : decide (p < k) = false := by simp; omega
      rw [h1, h2, Bool.false_and, Bool.false_and]

theorem reverse_bits_two_mul_add_one (q k : Nat) :
    reverse_bits (2 * q + 1) (k + 1) = reverse_bits q k + 2 ^ k := by
  have hlt : reverse_bits q k < 2 ^ k := reverse_bits_lt q k
  apply Nat.eq_of_testBit_eq
  intro p
  rw [reverse_bits_testBit, Nat.add_comm (reverse_bits q k) (2 ^ k)]
  rcases lt_trichotomy p k with h | h | h
  · rw [Nat.testBit_two_pow_add_gt h]
    have h1 : decide (p < k + 1) = true := by simp; omega
    rw [h1, Bool.true_and, reverse_bits_testBit]
    have h2 : decide (p < k) = true := by simp [h]
    rw [h2, Bool.true_and]
    have hk : k + 1 - 1 - p = (k - 1 - p) + 1 := by omega
    rw [hk, Nat.testBit_succ]
    have hd : (2 * q + 1) / 2 = q := by omega
    rw [hd]
  · subst h
    rw [Nat.testBit_two_pow_add_eq, Nat.testBit_lt_two_pow hlt]
    have h1 : decide (p < p + 1) = true := by simp
    rw [h1, Bool.true_and]
    have he : p + 1 - 1 - p = 0 := by omega
    rw [he, Nat.testBit_zero]
    have hmod : (2 * q + 1) % 2 = 1 := by omega
    simp [hmod]
  · have hbound : 2 ^ k + reverse_bits q k < 2 ^ p := by
      calc 2 ^ k + reverse_bits q k < 2 ^ k + 2 ^ k := by omega
      _ = 2 ^ (k + 1) := by ring
      _ ≤ 2 ^ p := Nat.pow_le_pow_right (by omega) (by omega)
    rw [Nat.testBit_lt_two_pow hbound]
    have h1 : decide (p < k + 1) = false := by simp; omega
    rw [h1, Bool.false_and]

/-! ## FFT embedding (`fft.rs`) -/

/-- Model of Rust's `usize::is_power_of_two` (exactly one set bit; `0` is not a
power of two). -/
def is_power_of_two (n : Nat) : Bool :=
  if n = 0 then false
  else if n = 1 then true
  else if n % 2 = 0 then is_power_of_two (n / 2) else false
termination_by n
decreasing_by omega

theorem is_power_of_two_two_pow (k : Nat) : is_power_of_two (2 ^ k) = true := by
  induction k with
  | zero => rw [is_power_of_two]; norm_num
  | succ k ih =>
    rw [is_power_of_two]
    have h0 : 2 ^ (k + 1) ≠ 0 := by positivity
    have h2 : 2 ^ (k + 1) % 2 = 0 := by
      rw [pow_succ, Nat.mul_mod_left]
    have hd : 2 ^ (k + 1) / 2 = 2 ^ k := by
      rw [pow_succ, Nat.mul_div_cancel]
      omega
    by_cases h1 : 2 ^ (k + 1) = 1
    · simp [h0, h1]
    · rw [if_neg h0, if_neg h1, if_pos h2, hd]
      exact ih

theorem is_power_of_two_iff (n : Nat) : is_power_of_two n = true ↔ ∃ k, n = 2 ^ k := by
  constructor
  · intro h
    induction n using Nat.strong_induction_on with
    | _ n ih =>
      rw [is_power_of_two] at h
      by_cases h0 : n = 0
      · rw [if_pos h0] at h
        exact absurd h (by simp)
      · by_cases h1 : n = 1
        · exact ⟨0, by simpa using h1⟩
        · rw [if_neg h0, if_neg h1] at h
          by_cases h2 : n % 2 = 0
          · rw [if_pos h2] at h
            obtain ⟨k, hk⟩ := ih (n / 2) (by omega) h
            exact ⟨k + 1, by rw [pow_succ]; omega⟩
          · rw [if_neg h2] at h
            exact absurd h (by simp)
  · rintro ⟨k, rfl⟩
    exact is_power_of_two_two_pow k

/-- Model of Rust's `usize::trailing_zeros` on non-zero input (`fft` only calls
it after the power-of-two assertion, so the value at `0` is irrelevant). -/
def trailing_zeros (n : Nat) : Nat :=
  if n = 0 then 0 else if n % 2 = 1 then 0 else trailing_zeros (n / 2) + 1
termination_by n
decreasing_by omega

theorem trailing_zeros_two_pow (k : Nat) : trailing_zeros (2 ^ k) = k := by
  induction k with
  | zero => rw [trailing_zeros]; norm_num
  | succ k ih =>
    rw [trailing_zeros]
    have h0 : 2 ^ (k + 1) ≠ 0 := by positivity
    have h2 : 2 ^ (k + 1) % 2 = 0 := by rw [pow_succ, Nat.mul_mod_left]
    have hd : 2 ^ (k + 1) / 2 = 2 ^ k := by
      rw [pow_succ, Nat.mul_div_cancel]
      omega
    rw [if_neg h0, if_neg (by omega), hd, ih]

/-- `slice::swap(i, j)` on a list.  Every use below is in bounds (an
out-of-bounds index would be a Rust panic; under `fft`'s power-of-two guard the
computed indices are provably in bounds, so the fallback branch is
unreachable). -/
def listSwap {α : Type} (a : List α) (i j : Nat) : List α :=
  match a[i]?, a[j]? with
  | some x, some y => (a.set i y).set j x
  | _, _ => a

/-- The bit-reversal permutation pass of `fft`: for `i in 0..n`, compute
`j = reverse_bits(i, bits)` and swap once when `i < j`. -/
def bitrevPass {α : Type} (a : List α) (n bits : Nat) : List α :=
  (List.range n).foldl
    (fun acc i =>
      if i < reverse_bits i bits then listSwap acc i (reverse_bits i bits) else acc) a

/-- The innermost butterfly loop of `fft` over offsets `js` inside the block
starting at `k`, with the accumulating twiddle `w` (`w *= w_m` per step):
`t = w * a[k+j+half_m]; a[k+j+half_m] = a[k+j] - t; a[k+j] = a[k+j] + t`. -/
def butterflies {K : Type} [Field K] (w_m : K) (k half_m : Nat) :
    List K → K → List Nat → List K
  | a, _, [] => a
  | a, w, j :: js =>
      let t := w * (a.getD (k + j + half_m) 0)
      let a1 := a.set (k + j + half_m) (a.getD (k + j) 0 - t)
      let a2 := a1.set (k + j) (a1.getD (k + j) 0 + t)
      butterflies w_m k half_m a2 (w * w_m) js

/-- Models Rust's `(0..n).step_by(step)`: `0, step, 2*step, …` below `n`. -/
def stepByList (n step : Nat) : List Nat :=
  (List.range ((n + step - 1) / step)).map (fun i => i * step)

/-- One iteration of `fft`'s `while m < n` stage loop body: for each block
start `k in (0..n).step_by(m)` run the butterflies with half-width `half_m`
and stage twiddle `w_m`. -/
def fftStage {K : Type} [Field K] (a : List K) (w_m : K) (n m half_m : Nat) : List K :=
  (stepByList n m).foldl (fun acc k => butterflies w_m k half_m acc 1 (List.range half_m)) a

/-- The `while m < n` stage loop of `fft`; `m` doubles each iteration.  The
source enters with `m = 1` and `m` only grows, so `0 < m` is an invariant,
recorded in the guard to justify termination. -/
def fftLoop {K : Type} [Field K] (omega : K) (n : Nat) (a : List K) (m : Nat) : List K :=
  if h : 0 < m ∧ m < n then
    let half_m := m
    let m2 := m * 2
    let w_m := omega ^ (n / m2)
    fftLoop omega n (fftStage a w_m n m2 half_m) m2
  else a
termination_by n - m
decreasing_by omega

/-- Embedding of `fft.rs::fft`: assert the length is a power of two, apply the
bit-reversal permutation, then the iterative butterfly stages. -/
def fft {K : Type} [Field K] (poly_coeffs : List K) (omega : K) : PanicOr (List K) :=
  let n := poly_coeffs.length
  if is_power_of_two n = false then .panicked "Length must be a power of 2"
  else
    let bits := trailing_zeros n
    .ok (fftLoop omega n (bitrevPass poly_coeffs n bits) 1)

/-- Multiplicative inverse as the external field library provides it
(`ark_ff::Field::inverse`): `None` on zero. -/
def fieldInverse {K : Type} [Field K] [DecidableEq K] (x : K) : Option K :=
  if x = 0 then none else some x⁻¹

/-- Embedding of `fft.rs::ifft`: `fft` with the inverse root, then scale every
entry by `n⁻¹`; the `unwrap` panics when `(n : K)` is zero. -/
def ifft {K : Type} [Field K] [DecidableEq K] (evals : List K) (omega_inv : K) :
    PanicOr (List K) :=
  let n := evals.length
  PanicOr.bind (fft evals omega_inv) (fun e =>
    match fieldInverse ((n : K)) with
    | none => .panicked "called Option unwrap on a None value"
    | some n_inv => .ok (e.map (fun x => x * n_inv)))

/-- Embedding of `fft.rs::interpolate`: assert equal lengths, read `domain[1]`
(out-of-bounds panic when the common length is below 2), form the inverse root
as `domain[1] ^ (n - 1)`, and run `ifft`.  The source wraps the result in
`DensePolynomial::from_coefficients_vec`; the raw coefficient vector is
returned here. -/
def interpolate {K : Type} [Field K] [DecidableEq K] (evals domain : List K) :
    PanicOr (List K) :=
  if evals.length ≠ domain.length then .panicked "Evaluation and domain size mismatch"
  else
    let n := evals.length
    match domain[1]? with
    | none => .panicked "index out of bounds"
    | some d1 => ifft evals (d1 ^ (n - 1))

/-! ### List indexing helpers -/

theorem getD_set_self {α : Type} (l : List α) (i : Nat) (x d : α) (h : i < l.length) :
    (l.set i x).getD i d = x := by
  rw [List.getD_eq_getElem?_getD, List.getElem?_set, if_pos rfl, if_pos h]
  rfl

theorem getD_set_ne {α : Type} (l : List α) (i j : Nat) (x d : α) (h : i ≠ j) :
    (l.set i x).getD j d = l.getD j d := by
  rw [List.getD_eq_getElem?_getD, List.getElem?_set, if_neg h, ← List.getD_eq_getElem?_getD]

theorem listSwap_length {α : Type} (a : List α) (i j : Nat) :
    (listSwap a i j).length = a.length := by
  rw [listSwap]
  cases hi : a[i]? <;> cases hj : a[j]? <;> simp

theorem butterflies_length {K : Type} [Field K] (w_m : K) (k half_m : Nat)
    (js : List Nat) (a : List K) (w : K) :
    (butterflies w_m k half_m a w js).length = a.length := by
  induction js generalizing a w with
  | nil => rfl
  | cons j js ih => rw [butterflies, ih]; simp

theorem fftStage_length {K : Type} [Field K] (a : List K) (w_m : K) (n m half_m : Nat) :
    (fftStage a w_m n m half_m).length = a.length := by
  rw [fftStage]
  induction stepByList n m generalizing a with
  | nil => rfl
  | cons k ks ih => rw [List.foldl_cons, ih, butterflies_length]

theorem fftLoop_length {K : Type} [Field K] (omega : K) (n : Nat) (a : List K) (m : Nat) :
    (fftLoop omega n a m).length = a.length := by
  induction a, m using fftLoop.induct omega n with
  | case1 a m h half_m m2 w_m ih =>
    rw [fftLoop, dif_pos h]
    rw [ih, fftStage_length]
  | case2 a m h => rw [fftLoop, dif_neg h]

theorem bitrevPass_length {α : Type} (a : List α) (n bits : Nat) :
    (bitrevPass a n bits).length = a.length := by
  rw [bitrevPass]
  induction List.range n generalizing a with
  | nil => rfl
  | cons i l ih =>
    rw [List.foldl_cons]
    rw [ih]
    by_cases h : i < reverse_bits i bits
    · simp only [if_pos h, listSwap_length]
    · simp only [if_neg h]

theorem listSwap_getD_fst {α : Type} (a : List α) (i j : Nat) (d : α)
    (hi : i < a.length) (hj : j < a.length) :
    (listSwap a i j).getD i d = a.getD j d := by
  rw [listSwap, List.getElem?_eq_getElem hi, List.getElem?_eq_getElem hj]
  by_cases hij : i = j
  · subst hij
    rw [List.getD_eq_getElem?_getD, List.getElem?_set, if_pos rfl,
      if_pos (by simpa using hi)]
    simp [List.getD_eq_getElem?_getD, List.getElem?_eq_getElem hi]
  · rw [getD_set_ne _ _ _ _ _ (fun h => hij h.symm)]
    rw [getD_set_self _ _ _ _ hi]
    rw [List.getD_eq_getElem?_getD, List.getElem?_eq_getElem hj]
    rfl

theorem listSwap_getD_snd {α : Type} (a : List α) (i j : Nat) (d : α)
    (hi : i < a.length) (hj : j < a.length) :
    (listSwap a i j).getD j d = a.getD i d := by
  rw [listSwap, List.getElem?_eq_getElem hi, List.getElem?_eq_getElem hj]
  rw [getD_set_self _ _ _ _ (by simpa using hj)]
  rw [List.getD_eq_getElem?_getD, List.getElem?_eq_getElem hi]
  rfl

theorem listSwap_getD_other {α : Type} (a : List α) (i j p : Nat) (d : α)
    (hpi : p ≠ i) (hpj : p ≠ j) :
    (listSwap a i j).getD p d = a.getD p d := by
  rw [listSwap]
  cases hgi : a[i]? with
  | none => rfl
  | some x =>
    cases hgj : a[j]? with
    | none => rfl
    | some y =>
      rw [getD_set_ne _ _ _ _ _ (fun h => hpj h.symm),
        getD_set_ne _ _ _ _ _ (fun h => hpi h.symm)]

theorem bitrevFold_length {α : Type} (bits : Nat) (l : List Nat) (a : List α) :
    ((l.foldl
      (fun acc i =>
        if i < reverse_bits i bits then listSwap acc i (reverse_bits i bits) else acc) a)).length
      = a.length := by
  induction l generalizing a with
  | nil => rfl
  | cons i l ih =>
    rw [List.foldl_cons, ih]
    by_cases h : i < reverse_bits i bits
    · simp only [if_pos h, listSwap_length]
    · simp only [if_neg h]

theorem bitrevFold_getD {α : Type} (a : List α) (bits : Nat) (d : α)
    (hn : a.length = 2 ^ bits) :
    ∀ (t : Nat), t ≤ a.length → ∀ (p : Nat), p < a.length →
    ((List.range t).foldl
      (fun acc i =>
        if i < reverse_bits i bits then listSwap acc i (reverse_bits i bits) else acc) a).getD p d =
    if p < t ∨ reverse_bits p bits < t then a.getD (reverse_bits p bits) d
    else a.getD p d := by
  intro t
  induction t with
  | zero =>
    intro _ p hp
    simp
  | succ t ih =>
    intro ht p hp
    have ht' : t ≤ a.length := by omega
    rw [List.range_succ, List.foldl_append, List.foldl_cons, List.foldl_nil]
    have hlen := bitrevFold_length bits (List.range t) a
    set prev := (List.range t).foldl
        (fun acc i =>
          if i < reverse_bits i bits then listSwap acc i (reverse_bits i bits) else acc) a
      with hprev
    have hrevp : reverse_bits p bits < a.length := by rw [hn]; exact reverse_bits_lt p bits
    have hrevt : reverse_bits t bits < a.length := by rw [hn]; exact reverse_bits_lt t bits
    have hinv : reverse_bits (reverse_bits p bits) bits = p :=
      reverse_bits_involution p bits (by rw [← hn]; exact hp)
    have hinvt : reverse_bits (reverse_bits t bits) bits = t :=
      reverse_bits_involution t bits (by rw [← hn]; omega)
    by_cases hcase : t < reverse_bits t bits
    · rw [if_pos hcase]
      by_cases hpt : p = t
      · subst hpt
        rw [listSwap_getD_fst prev p (reverse_bits p bits) d (by omega) (by omega)]
        rw [ih ht' (reverse_bits p bits) hrevp]
        rw [hinv]
        rw [if_neg (by omega), if_pos (by omega)]
      · by_cases hpr : p = reverse_bits t bits
        · rw [hpr]
          rw [listSwap_getD_snd prev t (reverse_bits t bits) d (by omega) (by omega)]
          rw [ih ht' t (by omega)]
          rw [if_neg (by omega), hinvt]
          rw [if_pos (Or.inr (by omega))]
        · rw [listSwap_getD_other prev t (reverse_bits t bits) p d hpt hpr]
          rw [ih ht' p hp]
          have hrevne : reverse_bits p bits ≠ t := fun h => hpr (by rw [← h, hinv])
          by_cases hc : p < t ∨ reverse_bits p bits < t
          · rw [if_pos hc, if_pos (by omega)]
          · rw [if_neg hc, if_neg (by push_neg at hc ⊢; omega)]
    · rw [if_neg hcase]
      push_neg at hcase
      rw [ih ht' p hp]
      by_cases hpt : p = t
      · subst hpt
        by_cases heq : reverse_bits p bits = p
        · rw [if_neg (by omega), if_pos (by omega), heq]
        · have hlt : reverse_bits p bits < p := by omega
          rw [if_pos (by omega), if_pos (by omega)]
      · by_cases hrevpt : reverse_bits p bits = t
        · have hpeq : reverse_bits t bits = p := by rw [← hrevpt, hinv]
          have hplt : p < t := by omega
          rw [if_pos (by omega), if_pos (by omega)]
        · by_cases hc : p < t ∨ reverse_bits p bits < t
          · rw [if_pos hc, if_pos (by omega)]
          · rw [if_neg hc, if_neg (by push_neg at hc ⊢; omega)]

/-- The bit-reversal pass permutes the input: position `p` receives the entry
at the bit-reversed index. -/
theorem bitrevPass_getD {α : Type} (a : List α) (bits : Nat) (d : α)
    (hn : a.length = 2 ^ bits) (p : Nat) (hp : p < a.length) :
    (bitrevPass a a.length bits).getD p d = a.getD (reverse_bits p bits) d := by
  have h := bitrevFold_getD a bits d hn a.length (le_refl _) p hp
  rw [bitrevPass]
  rw [h, if_pos (by omega)]

theorem butterflies_cons {K : Type} [Field K] (w_m : K) (k half_m : Nat)
    (a : List K) (w : K) (j : Nat) (js : List Nat) :
    butterflies w_m k half_m a w (j :: js) =
      butterflies w_m k half_m
        ((a.set (k + j + half_m) (a.getD (k + j) 0 - w * a.getD (k + j + half_m) 0)).set
          (k + j)
          ((a.set (k + j + half_m)
              (a.getD (k + j) 0 - w * a.getD (k + j + half_m) 0)).getD (k + j) 0 +
            w * a.getD (k + j + half_m) 0))
        (w * w_m) js := rfl

/-- Pointwise description of the butterfly loop over offsets
`j, j+1, …, j+cnt-1` starting from twiddle `w_m ^ j`: positions
`k+j … k+j+cnt-1` receive `a[p] + w_m^(p-k) * a[p+half_m]`, positions
`k+half_m+j … k+half_m+j+cnt-1` receive `a[p-half_m] - w_m^(p-k-half_m) * a[p]`,
everything else is untouched. -/
theorem butterflies_getD {K : Type} [Field K] (w_m : K) (k half_m : Nat) (hhm : 0 < half_m) :
    ∀ (cnt j : Nat) (a : List K), j + cnt ≤ half_m → k + half_m + half_m ≤ a.length →
    ∀ p, (butterflies w_m k half_m a (w_m ^ j) (List.range' j cnt)).getD p 0 =
      if k + j ≤ p ∧ p < k + j + cnt then
        a.getD p 0 + w_m ^ (p - k) * a.getD (p + half_m) 0
      else if k + half_m + j ≤ p ∧ p < k + half_m + j + cnt then
        a.getD (p - half_m) 0 - w_m ^ (p - k - half_m) * a.getD p 0
      else a.getD p 0 := by
  intro cnt
  induction cnt with
  | zero =>
    intro j a hj ha p
    rw [show List.range' j 0 = [] from rfl]
    rw [show butterflies w_m k half_m a (w_m ^ j) [] = a from rfl]
    rw [if_neg (by omega), if_neg (by omega)]
  | succ cnt ih =>
    intro j a hj ha p
    have hjh : j < half_m := by omega
    have hlt1 : k + j < a.length := by omega
    have hlt2 : k + j + half_m < a.length := by omega
    rw [List.range'_succ, butterflies_cons]
    set a2 := ((a.set (k + j + half_m)
          (a.getD (k + j) 0 - w_m ^ j * a.getD (k + j + half_m) 0)).set
        (k + j)
        ((a.set (k + j + half_m)
            (a.getD (k + j) 0 - w_m ^ j * a.getD (k + j + half_m) 0)).getD (k + j) 0 +
          w_m ^ j * a.getD (k + j + half_m) 0)) with ha2
    have ha2len : a2.length = a.length := by
      rw [ha2, List.length_set, List.length_set]
    have ha2get : ∀ q, a2.getD q 0 =
        if q = k + j then a.getD (k + j) 0 + w_m ^ j * a.getD (k + j + half_m) 0
        else if q = k + j + half_m then
          a.getD (k + j) 0 - w_m ^ j * a.getD (k + j + half_m) 0
        else a.getD q 0 := by
      intro q
      by_cases hq1 : q = k + j
      · subst hq1
        rw [ha2, getD_set_self _ _ _ _ (by rw [List.length_set]; omega)]
        rw [if_pos rfl, getD_set_ne _ _ _ _ _ (by omega)]
      · by_cases hq2 : q = k + j + half_m
        · subst hq2
          rw [ha2, getD_set_ne _ _ _ _ _ (by omega),
            getD_set_self _ _ _ _ (by omega), if_neg hq1, if_pos rfl]
        · rw [ha2, getD_set_ne _ _ _ _ _ (fun h => hq1 h.symm),
            getD_set_ne _ _ _ _ _ (fun h => hq2 h.symm), if_neg hq1, if_neg hq2]
    have hw : w_m ^ j * w_m = w_m ^ (j + 1) := (pow_succ w_m j).symm
    rw [hw]
    rw [ih (j + 1) a2 (by omega) (by omega) p]
    by_cases hp1 : p = k + j
    · rw [if_neg (by omega), if_neg (by omega), ha2get, if_pos hp1]
      rw [if_pos (by omega)]
      subst hp1
      have he1 : k + j - k = j := by omega
      rw [he1]
    · by_cases hp2 : p = k + j + half_m
      · rw [if_neg (by omega), if_neg (by omega), ha2get, if_neg hp1, if_pos hp2]
        rw [if_neg (by omega), if_pos (by omega)]
        subst hp2
        have he1 : k + j + half_m - half_m = k + j := by omega
        have he2 : k + j + half_m - k - half_m = j := by omega
        rw [he1, he2]
      · by_cases hc1 : k + (j + 1) ≤ p ∧ p < k + (j + 1) + cnt
        · rw [if_pos hc1, ha2get, ha2get]
          rw [if_neg (by omega), if_neg (by omega), if_neg (by omega), if_neg (by omega)]
          rw [if_pos (by omega)]
        · by_cases hc2 : k + half_m + (j + 1) ≤ p ∧ p < k + half_m + (j + 1) + cnt
          · rw [if_neg hc1, if_pos hc2, ha2get, ha2get]
            rw [if_neg (by omega), if_neg (by omega), if_neg (by omega), if_neg (by omega)]
            rw [if_neg (by omega), if_pos (by omega)]
          · rw [if_neg hc1, if_neg hc2, ha2get, if_neg hp1, if_neg hp2]
            rw [if_neg (by omega), if_neg (by omega)]

theorem stepByList_of_dvd (n m : Nat) (hm : 0 < m) (hdvd : m ∣ n) :
    stepByList n m = (List.range' 0 (n / m)).map (fun i => i * m) := by
  have h1 : (n + m - 1) / m = n / m := by
    obtain ⟨q, rfl⟩ := hdvd
    have he : m * q + m - 1 = m * q + (m - 1) := by omega
    rw [he, Nat.mul_add_div hm, Nat.div_eq_of_lt (by omega), Nat.mul_div_cancel_left _ hm]
    omega
  rw [stepByList, h1, List.range_eq_range']

theorem fftStageFold_length {K : Type} [Field K] (w_m : K) (half_m : Nat) :
    ∀ (ks : List Nat) (a : List K),
    (ks.foldl (fun acc k => butterflies w_m k half_m acc 1 (List.range half_m)) a).length
      = a.length := by
  intro ks
  induction ks with
  | nil => intro a; rfl
  | cons k ks ih =>
    intro a
    rw [List.foldl_cons, ih, butterflies_length]

/-- Pointwise description of one stage pass over consecutive blocks
`b0, …, b0+cnt-1` of width `m2 = 2 * half_m`: inside a processed block the two
butterfly branches apply, outside the processed range nothing changes. -/
theorem fftStage_fold_getD {K : Type} [Field K] (w_m : K) (half_m m2 : Nat)
    (hhm : 0 < half_m) (hm2 : m2 = half_m * 2) :
    ∀ (cnt b0 : Nat) (a : List K), (b0 + cnt) * m2 ≤ a.length →
    (∀ (b r : Nat), b0 ≤ b → b < b0 + cnt → r < m2 →
      (((List.range' b0 cnt).map (fun i => i * m2)).foldl
        (fun acc k => butterflies w_m k half_m acc 1 (List.range half_m)) a).getD
          (b * m2 + r) 0 =
        (if r < half_m then
          a.getD (b * m2 + r) 0 + w_m ^ r * a.getD (b * m2 + r + half_m) 0
        else
          a.getD (b * m2 + r - half_m) 0 - w_m ^ (r - half_m) * a.getD (b * m2 + r) 0)) ∧
    (∀ p : Nat, p < b0 * m2 ∨ (b0 + cnt) * m2 ≤ p →
      (((List.range' b0 cnt).map (fun i => i * m2)).foldl
        (fun acc k => butterflies w_m k half_m acc 1 (List.range half_m)) a).getD p 0 =
        a.getD p 0) := by
  intro cnt
  induction cnt with
  | zero =>
    intro b0 a hlen
    constructor
    · intro b r hb1 hb2 hr
      omega
    · intro p hp
      rfl
  | succ cnt ih =>
    intro b0 a hlen
    simp only [List.range'_succ, List.map_cons, List.foldl_cons]
    have hb1 : b0 * m2 + half_m + half_m ≤ a.length := by
      have e1 : b0 * m2 + half_m + half_m = (b0 + 1) * m2 := by rw [hm2]; ring
      have e2 : (b0 + 1) * m2 ≤ (b0 + 1 + cnt) * m2 := Nat.mul_le_mul_right _ (by omega)
      have e3 : (b0 + (cnt + 1)) * m2 = (b0 + 1 + cnt) * m2 := by ring
      omega
    set acc' := butterflies w_m (b0 * m2) half_m a 1 (List.range half_m) with hacc'
    have hblen : acc'.length = a.length := butterflies_length w_m (b0 * m2) half_m _ a 1
    have hfort : ∀ q, acc'.getD q 0 =
        if b0 * m2 + 0 ≤ q ∧ q < b0 * m2 + 0 + half_m then
          a.getD q 0 + w_m ^ (q - b0 * m2) * a.getD (q + half_m) 0
        else if b0 * m2 + half_m + 0 ≤ q ∧ q < b0 * m2 + half_m + 0 + half_m then
          a.getD (q - half_m) 0 - w_m ^ (q - b0 * m2 - half_m) * a.getD q 0
        else a.getD q 0 := by
      intro q
      have h := butterflies_getD w_m (b0 * m2) half_m hhm half_m 0 a (by omega) hb1 q
      rw [pow_zero] at h
      rw [hacc', List.range_eq_range']
      exact h
    have hlenIH : (b0 + 1 + cnt) * m2 ≤ acc'.length := by
      rw [hblen]
      have e3 : (b0 + 1 + cnt) * m2 = (b0 + (cnt + 1)) * m2 := by ring
      omega
    obtain ⟨IH1, IH2⟩ := ih (b0 + 1) acc' hlenIH
    have hee : (b0 + 1) * m2 = b0 * m2 + m2 := by ring
    constructor
    · intro b r hbl hbu hr
      by_cases hbb : b = b0
      · subst hbb
        have hplt : b * m2 + r < (b + 1) * m2 := by omega
        rw [IH2 (b * m2 + r) (Or.inl hplt)]
        rw [hfort (b * m2 + r)]
        by_cases hrh : r < half_m
        · rw [if_pos (by omega), if_pos hrh]
          have her : b * m2 + r - b * m2 = r := by omega
          rw [her]
        · rw [if_neg (by omega), if_pos (by omega), if_neg hrh]
          have her : b * m2 + r - b * m2 - half_m = r - half_m := by omega
          rw [her]
      · have hb' : b0 + 1 ≤ b := by omega
        have hge : (b0 + 1) * m2 ≤ b * m2 := Nat.mul_le_mul_right m2 hb'
        rw [IH1 b r hb' (by omega) hr]
        by_cases hrh : r < half_m
        · rw [if_pos hrh, if_pos hrh]
          rw [hfort (b * m2 + r), if_neg (by omega), if_neg (by omega)]
          rw [hfort (b * m2 + r + half_m), if_neg (by omega), if_neg (by omega)]
        · rw [if_neg hrh, if_neg hrh]
          rw [hfort (b * m2 + r - half_m), if_neg (by omega), if_neg (by omega)]
          rw [hfort (b * m2 + r), if_neg (by omega), if_neg (by omega)]
    · intro p hp
      rcases hp with hp | hp
      · have hlt : p < (b0 + 1) * m2 := by omega
        rw [IH2 p (Or.inl hlt)]
        rw [hfort p, if_neg (by omega), if_neg (by omega)]
      · have e3 : (b0 + (cnt + 1)) * m2 = (b0 + 1 + cnt) * m2 := by ring
        have hge : (b0 + 1 + cnt) * m2 ≤ p := by omega
        rw [IH2 p (Or.inr hge)]
        have h2 : (b0 + 1) * m2 ≤ (b0 + 1 + cnt) * m2 := Nat.mul_le_mul_right _ (by omega)
        rw [hfort p, if_neg (by omega), if_neg (by omega)]

/-! ### The stage invariant: partial DFTs of bit-reversed-strided subsequences -/

/-- After the butterfly stages of half-width `1, 2, …, 2^(s-1)` have run, the
entry at position `p` of the working array is this partial DFT: block
`p / 2^s` holds the size-`2^s` DFT (with root `omega ^ 2^(lg-s)`) of the
subsequence of the original input starting at the bit-reversed block index
with stride `2^(lg-s)`. -/
def dftPartial {K : Type} [Field K] (x : List K) (omega : K) (lg s p : Nat) : K :=
  ∑ t ∈ Finset.range (2 ^ s),
    x.getD (reverse_bits (p / 2 ^ s) (lg - s) + t * 2 ^ (lg - s)) 0 *
      omega ^ (2 ^ (lg - s) * (t * (p % 2 ^ s)))

theorem dftPartial_zero {K : Type} [Field K] (x : List K) (omega : K) (lg p : Nat) :
    dftPartial x omega lg 0 p = x.getD (reverse_bits p lg) 0 := by
  rw [dftPartial]
  rw [pow_zero, Finset.sum_range_one]
  rw [Nat.div_one, Nat.mod_one]
  simp

theorem dftPartial_lg {K : Type} [Field K] (x : List K) (omega : K) (lg p : Nat)
    (hp : p < 2 ^ lg) :
    dftPartial x omega lg lg p =
      ∑ t ∈ Finset.range (2 ^ lg), x.getD t 0 * omega ^ (t * p) := by
  rw [dftPartial]
  apply Finset.sum_congr rfl
  intro t ht
  have h1 : lg - lg = 0 := by omega
  have h2 : p / 2 ^ lg = 0 := Nat.div_eq_of_lt hp
  have h3 : p % 2 ^ lg = p := Nat.mod_eq_of_lt hp
  rw [h1, h2, h3]
  rw [show reverse_bits 0 0 = 0 from rfl]
  rw [pow_zero, mul_one, Nat.zero_add, one_mul]

theorem sum_range_even_odd {M : Type} [AddCommMonoid M] (f : Nat → M) (n : Nat) :
    ∑ t ∈ Finset.range (2 * n), f t =
      (∑ u ∈ Finset.range n, f (2 * u)) + ∑ u ∈ Finset.range n, f (2 * u + 1) := by
  induction n with
  | zero => simp
  | succ n ih =>
    have h : 2 * (n + 1) = (2 * n + 1) + 1 := by ring
    rw [h, Finset.sum_range_succ, Finset.sum_range_succ, Finset.sum_range_succ,
      Finset.sum_range_succ, ih]
    have h2 : 2 * n + 1 - 1 = 2 * n := by omega
    abel

/-- One stage of butterflies advances the partial-DFT invariant from
half-blocks of size `2^s` to blocks of size `2^(s+1)`. -/
theorem fftStage_dft_step {K : Type} [Field K] (omega : K) (x : List K) (lg s : Nat)
    (hs : s < lg) (hroot : omega ^ (2 ^ (lg - 1)) = (-1 : K))
    (a : List K) (hlen : a.length = 2 ^ lg)
    (hinv : ∀ q, q < 2 ^ lg → a.getD q 0 = dftPartial x omega lg s q) :
    ∀ p, p < 2 ^ lg →
      (fftStage a (omega ^ (2 ^ lg / (2 ^ s * 2))) (2 ^ lg) (2 ^ s * 2) (2 ^ s)).getD p 0 =
        dftPartial x omega lg (s + 1) p := by
  intro p hp
  obtain ⟨d, hd⟩ : ∃ d, lg - s = d + 1 := ⟨lg - s - 1, by omega⟩
  have hlgs1 : lg - (s + 1) = d := by omega
  have hpow : (2 : Nat) ^ s * 2 = 2 ^ (s + 1) := by rw [pow_succ]
  have hdvd : (2 ^ s * 2) ∣ 2 ^ lg := by
    rw [hpow]
    exact pow_dvd_pow 2 (by omega)
  have hm2pos : 0 < 2 ^ s * 2 := by positivity
  have hsp : (0 : Nat) < 2 ^ s := by positivity
  have hk : 2 ^ lg / (2 ^ s * 2) = 2 ^ d := by
    rw [hpow, Nat.pow_div (by omega) (by omega)]
    congr 1
  have he2 : (2 : Nat) ^ (d + 1) = 2 * 2 ^ d := by
    rw [pow_succ]
    ring
  have hlg1 : (2 : Nat) ^ d * 2 ^ s = 2 ^ (lg - 1) := by
    rw [← pow_add]
    congr 1
    omega
  have hcntlen : (0 + 2 ^ lg / (2 ^ s * 2)) * (2 ^ s * 2) ≤ a.length := by
    rw [Nat.zero_add, Nat.div_mul_cancel hdvd, hlen]
  obtain ⟨HC1, _HC2⟩ := fftStage_fold_getD (omega ^ (2 ^ lg / (2 ^ s * 2))) (2 ^ s)
    (2 ^ s * 2) hsp rfl (2 ^ lg / (2 ^ s * 2)) 0 a hcntlen
  rw [fftStage, stepByList_of_dvd _ _ hm2pos hdvd]
  have hbr : p / (2 ^ s * 2) * (2 ^ s * 2) + p % (2 ^ s * 2) = p := by
    rw [mul_comm]
    exact Nat.div_add_mod p (2 ^ s * 2)
  have hrlt : p % (2 ^ s * 2) < 2 ^ s * 2 := Nat.mod_lt _ hm2pos
  have hblt : p / (2 ^ s * 2) < 2 ^ lg / (2 ^ s * 2) :=
    Nat.div_lt_div_of_lt_of_dvd hdvd hp
  set b := p / (2 ^ s * 2) with hbdef
  set r := p % (2 ^ s * 2) with hrdef
  have hmain := HC1 b r (Nat.zero_le _) (by omega) hrlt
  rw [← hbr, hmain, hk]
  simp only [dftPartial]
  have hdiv3 : (b * (2 ^ s * 2) + r) / 2 ^ (s + 1) = b := by
    rw [← hpow]
    have he : b * (2 ^ s * 2) + r = (2 ^ s * 2) * b + r := by ring
    rw [he, Nat.mul_add_div hm2pos, Nat.div_eq_of_lt hrlt, Nat.add_zero]
  have hmod3 : (b * (2 ^ s * 2) + r) % 2 ^ (s + 1) = r := by
    rw [← hpow]
    have he : b * (2 ^ s * 2) + r = (2 ^ s * 2) * b + r := by ring
    rw [he, Nat.mul_add_mod, Nat.mod_eq_of_lt hrlt]
  rw [hdiv3, hmod3, hlgs1]
  have hs2 : (2 : Nat) ^ (s + 1) = 2 * 2 ^ s := by
    rw [pow_succ]
    ring
  rw [hs2, sum_range_even_odd]
  have hrev1 : reverse_bits (2 * b) (d + 1) = reverse_bits b d :=
    reverse_bits_two_mul b d
  have hrev2 : reverse_bits (2 * b + 1) (d + 1) = reverse_bits b d + 2 ^ d :=
    reverse_bits_two_mul_add_one b d
  have hq1 : b * (2 ^ s * 2) + r < 2 ^ lg := by omega
  by_cases hr1 : r < 2 ^ s
  · rw [if_pos hr1]
    have hq2 : b * (2 ^ s * 2) + r + 2 ^ s < 2 ^ lg := by
      have h1 : (b + 1) * (2 ^ s * 2) ≤ (2 ^ lg / (2 ^ s * 2)) * (2 ^ s * 2) :=
        Nat.mul_le_mul_right _ (by omega)
      have h2 : (2 ^ lg / (2 ^ s * 2)) * (2 ^ s * 2) = 2 ^ lg := Nat.div_mul_cancel hdvd
      have h3 : (b + 1) * (2 ^ s * 2) = b * (2 ^ s * 2) + (2 ^ s * 2) := by ring
      omega
    rw [hinv _ hq1, hinv _ hq2]
    simp only [dftPartial]
    have hda : (b * (2 ^ s * 2) + r) / 2 ^ s = 2 * b := by
      have he : b * (2 ^ s * 2) + r = 2 ^ s * (2 * b) + r := by ring
      rw [he, Nat.mul_add_div hsp, Nat.div_eq_of_lt hr1, Nat.add_zero]
    have hma : (b * (2 ^ s * 2) + r) % 2 ^ s = r := by
      have he : b * (2 ^ s * 2) + r = 2 ^ s * (2 * b) + r := by ring
      rw [he, Nat.mul_add_mod, Nat.mod_eq_of_lt hr1]
    have hdb : (b * (2 ^ s * 2) + r + 2 ^ s) / 2 ^ s = 2 * b + 1 := by
      have he : b * (2 ^ s * 2) + r + 2 ^ s = 2 ^ s * (2 * b + 1) + r := by ring
      rw [he, Nat.mul_add_div hsp, Nat.div_eq_of_lt hr1, Nat.add_zero]
    have hmb : (b * (2 ^ s * 2) + r + 2 ^ s) % 2 ^ s = r := by
      have he : b * (2 ^ s * 2) + r + 2 ^ s = 2 ^ s * (2 * b + 1) + r := by ring
      rw [he, Nat.mul_add_mod, Nat.mod_eq_of_lt hr1]
    rw [hda, hma, hdb, hmb, hd, hrev1, hrev2, ← pow_mul omega (2 ^ d) r]
    congr 1
    · apply Finset.sum_congr rfl
      intro u hu
      have hidx : reverse_bits b d + u * 2 ^ (d + 1) =
          reverse_bits b d + 2 * u * 2 ^ d := by
        rw [he2]
        ring
      have hexp : 2 ^ (d + 1) * (u * r) = 2 ^ d * (2 * u * r) := by
        rw [he2]
        ring
      rw [hidx, hexp]
    · rw [Finset.mul_sum]
      apply Finset.sum_congr rfl
      intro u hu
      have hidx : reverse_bits b d + 2 ^ d + u * 2 ^ (d + 1) =
          reverse_bits b d + (2 * u + 1) * 2 ^ d := by
        rw [he2]
        ring
      have hexp : 2 ^ d * r + 2 ^ (d + 1) * (u * r) = 2 ^ d * ((2 * u + 1) * r) := by
        rw [he2]
        ring
      rw [hidx, mul_left_comm, ← pow_add omega (2 ^ d * r) (2 ^ (d + 1) * (u * r)), hexp]
  · rw [if_neg hr1]
    have hq0 : b * (2 ^ s * 2) + r - 2 ^ s < 2 ^ lg := by omega
    rw [hinv _ hq0, hinv _ hq1]
    simp only [dftPartial]
    have h00 : b * (2 ^ s * 2) = 2 ^ s * (2 * b) := by ring
    have hq1e : b * (2 ^ s * 2) + r - 2 ^ s = 2 ^ s * (2 * b) + (r - 2 ^ s) := by omega
    have hq2e : b * (2 ^ s * 2) + r = 2 ^ s * (2 * b + 1) + (r - 2 ^ s) := by
      have h01 : 2 ^ s * (2 * b + 1) = 2 ^ s * (2 * b) + 2 ^ s := by ring
      omega
    have hda : (b * (2 ^ s * 2) + r - 2 ^ s) / 2 ^ s = 2 * b := by
      rw [hq1e, Nat.mul_add_div hsp, Nat.div_eq_of_lt (by omega), Nat.add_zero]
    have hma : (b * (2 ^ s * 2) + r - 2 ^ s) % 2 ^ s = r - 2 ^ s := by
      rw [hq1e, Nat.mul_add_mod, Nat.mod_eq_of_lt (by omega)]
    have hdb : (b * (2 ^ s * 2) + r) / 2 ^ s = 2 * b + 1 := by
      rw [hq2e, Nat.mul_add_div hsp, Nat.div_eq_of_lt (by omega), Nat.add_zero]
    have hmb : (b * (2 ^ s * 2) + r) % 2 ^ s = r - 2 ^ s := by
      rw [hq2e, Nat.mul_add_mod, Nat.mod_eq_of_lt (by omega)]
    rw [hda, hma, hdb, hmb, hd, hrev1, hrev2]
    set rr := r - 2 ^ s with hrrdef
    rw [show r = rr + 2 ^ s from by omega]
    rw [← pow_mul omega (2 ^ d) rr]
    rw [sub_eq_add_neg]
    congr 1
    · apply Finset.sum_congr rfl
      intro u hu
      have hidx : reverse_bits b d + u * 2 ^ (d + 1) =
          reverse_bits b d + 2 * u * 2 ^ d := by
        rw [he2]
        ring
      have hexp : 2 ^ d * (2 * u * (rr + 2 ^ s)) =
          2 ^ (d + 1) * (u * rr) + 2 ^ (lg - 1) * (2 * u) := by
        rw [he2, ← hlg1]
        ring
      rw [hidx, hexp]
      rw [pow_add omega (2 ^ (d + 1) * (u * rr)) (2 ^ (lg - 1) * (2 * u))]
      rw [pow_mul omega (2 ^ (lg - 1)) (2 * u)]
      rw [hroot]
      have hne : (-1 : K) ^ (2 * u) = 1 := Even.neg_one_pow ⟨u, by ring⟩
      rw [hne, mul_one]
    · rw [Finset.mul_sum, ← Finset.sum_neg_distrib]
      apply Finset.sum_congr rfl
      intro u hu
      have hidx : reverse_bits b d + 2 ^ d + u * 2 ^ (d + 1) =
          reverse_bits b d + (2 * u + 1) * 2 ^ d := by
        rw [he2]
        ring
      have hexp : 2 ^ d * ((2 * u + 1) * (rr + 2 ^ s)) =
          (2 ^ d * rr + 2 ^ (d + 1) * (u * rr)) + 2 ^ (lg - 1) * (2 * u + 1) := by
        rw [he2, ← hlg1]
        ring
      rw [hidx, hexp]
      rw [pow_add omega (2 ^ d * rr + 2 ^ (d + 1) * (u * rr)) (2 ^ (lg - 1) * (2 * u + 1))]
      rw [pow_add omega (2 ^ d * rr) (2 ^ (d + 1) * (u * rr))]
      rw [pow_mul omega (2 ^ (lg - 1)) (2 * u + 1)]
      rw [hroot]
      have hno : (-1 : K) ^ (2 * u + 1) = -1 := Odd.neg_one_pow ⟨u, by ring⟩
      rw [hno]
      ring

theorem bitrevPass_getD' {α : Type} (a : List α) (n bits : Nat) (d : α)
    (hna : n = a.length) (hn : a.length = 2 ^ bits) (p : Nat) (hp : p < a.length) :
    (bitrevPass a n bits).getD p d = a.getD (reverse_bits p bits) d := by
  subst hna
  exact bitrevPass_getD a bits d hn p hp

/-- Running the stage loop from stage `s` to the end turns the stage-`s`
partial-DFT invariant into the full DFT. -/
theorem fftLoop_dft {K : Type} [Field K] (omega : K) (x : List K) (lg : Nat)
    (hroot : 1 ≤ lg → omega ^ (2 ^ (lg - 1)) = (-1 : K)) :
    ∀ (c s : Nat), s + c = lg →
    ∀ (a : List K), a.length = 2 ^ lg →
    (∀ q, q < 2 ^ lg → a.getD q 0 = dftPartial x omega lg s q) →
    ∀ p, p < 2 ^ lg →
      (fftLoop omega (2 ^ lg) a (2 ^ s)).getD p 0 = dftPartial x omega lg lg p := by
  intro c
  induction c with
  | zero =>
    intro s hs a hlen hinv p hp
    have hseq : s = lg := by omega
    subst hseq
    rw [fftLoop, dif_neg (fun hcontra => absurd hcontra.2 (lt_irrefl _))]
    exact hinv p hp
  | succ c ih =>
    intro s hs a hlen hinv p hp
    have hslt : s < lg := by omega
    have hlt : (2 : Nat) ^ s < 2 ^ lg := Nat.pow_lt_pow_right (by omega) (by omega)
    rw [fftLoop, dif_pos ⟨by positivity, hlt⟩]
    show (fftLoop omega (2 ^ lg)
        (fftStage a (omega ^ (2 ^ lg / (2 ^ s * 2))) (2 ^ lg) (2 ^ s * 2) (2 ^ s))
        (2 ^ s * 2)).getD p 0 = dftPartial x omega lg lg p
    have hlen' : (fftStage a (omega ^ (2 ^ lg / (2 ^ s * 2))) (2 ^ lg)
        (2 ^ s * 2) (2 ^ s)).length = 2 ^ lg := by
      rw [fftStage_length, hlen]
    have hinv' := fftStage_dft_step omega x lg s hslt (hroot (by omega)) a hlen hinv
    have happly := ih (s + 1) (by omega)
      (fftStage a (omega ^ (2 ^ lg / (2 ^ s * 2))) (2 ^ lg) (2 ^ s * 2) (2 ^ s))
      hlen' hinv' p hp
    rw [show (2 : Nat) ^ (s + 1) = 2 ^ s * 2 from by rw [pow_succ]] at happly
    exact happly

/-- `fft` on a power-of-two-length input succeeds, preserves the length, and
produces the evaluations `∑ t, coeffs[t] * omega^(t*p)` in natural order,
provided `omega ^ (n/2) = -1` (a consequence of `omega` being a primitive
`n`-th root of unity). -/
theorem fft_eval_of_root {K : Type} [Field K] (coeffs : List K) (omega : K) (lg : Nat)
    (hn : coeffs.length = 2 ^ lg)
    (hroot : 1 ≤ lg → omega ^ (2 ^ (lg - 1)) = (-1 : K)) :
    ∃ out, fft coeffs omega = PanicOr.ok out ∧ out.length = coeffs.length ∧
      ∀ p, p < coeffs.length →
        out.getD p 0 =
          ∑ t ∈ Finset.range coeffs.length, coeffs.getD t 0 * omega ^ (t * p) := by
  have hpt : is_power_of_two coeffs.length = true := by
    rw [hn]
    exact is_power_of_two_two_pow lg
  have hbits : trailing_zeros coeffs.length = lg := by
    rw [hn]
    exact trailing_zeros_two_pow lg
  refine ⟨fftLoop omega coeffs.length (bitrevPass coeffs coeffs.length lg) 1, ?_, ?_, ?_⟩
  · simp only [fft, hpt]
    rw [hbits]
    rw [if_neg (by simp)]
  · rw [fftLoop_length, bitrevPass_length]
  · intro p hp
    rw [hn] at hp ⊢
    have hlen0 : (bitrevPass coeffs (2 ^ lg) lg).length = 2 ^ lg := by
      rw [bitrevPass_length, hn]
    have hbase : ∀ q, q < 2 ^ lg →
        (bitrevPass coeffs (2 ^ lg) lg).getD q 0 = dftPartial coeffs omega lg 0 q := by
      intro q hq
      rw [dftPartial_zero]
      exact bitrevPass_getD' coeffs (2 ^ lg) lg 0 hn.symm hn q (by omega)
    have hfin := fftLoop_dft omega coeffs lg hroot lg 0 (by omega)
      (bitrevPass coeffs (2 ^ lg) lg) hlen0 hbase p hp
    rw [dftPartial_lg coeffs omega lg p hp] at hfin
    exact hfin

/-! ### Consequences of primitivity used by the FFT theorems -/

theorem prim_root_pow_half {K : Type} [Field K] (omega : K) (lg : Nat)
    (h : IsPrimitiveRoot omega (2 ^ lg)) (hlg : 1 ≤ lg) :
    omega ^ (2 ^ (lg - 1)) = -1 := by
  obtain ⟨d, rfl⟩ : ∃ d, lg = d + 1 := ⟨lg - 1, by omega⟩
  rw [Nat.add_sub_cancel]
  have hsq : omega ^ (2 ^ d) * omega ^ (2 ^ d) = 1 := by
    rw [← pow_add]
    have he : 2 ^ d + 2 ^ d = 2 ^ (d + 1) := by
      rw [pow_succ]
      ring
    rw [he]
    exact h.pow_eq_one
  have hlt : (2 : Nat) ^ d < 2 ^ (d + 1) := Nat.pow_lt_pow_right (by omega) (by omega)
  have hne : omega ^ (2 ^ d) ≠ 1 := h.pow_ne_one_of_pos_of_lt (by positivity) hlt
  rcases mul_self_eq_one_iff.mp hsq with h1 | h1
  · exact absurd h1 hne
  · exact h1

theorem prim_root_cast_ne_zero {K : Type} [Field K] (omega : K) (lg : Nat)
    (h : IsPrimitiveRoot omega (2 ^ lg)) : ((2 ^ lg : Nat) : K) ≠ 0 := by
  rcases Nat.eq_zero_or_pos lg with h0 | hpos
  · subst h0
    simp
  · have hhalf := prim_root_pow_half omega lg h hpos
    have hne : omega ^ (2 ^ (lg - 1)) ≠ 1 :=
      h.pow_ne_one_of_pos_of_lt (by positivity) (Nat.pow_lt_pow_right (by omega) (by omega))
    have h2 : (2 : K) ≠ 0 := by
      intro h2z
      apply hne
      rw [hhalf]
      calc (-1 : K) = 1 - 2 := by ring
      _ = 1 - 0 := by rw [h2z]
      _ = 1 := by ring
    rw [Nat.cast_pow, Nat.cast_ofNat]
    exact pow_ne_zero lg h2

/-! ### Polynomial evaluation (`ark_poly` `Polynomial::evaluate`, Horner form) -/

/-- Evaluation of a dense coefficient list at a point (coefficient of `x^i` at
index `i`), modelling the external `ark_poly` evaluation. -/
def evalPoly {K : Type} [CommRing K] (coeffs : List K) (x : K) : K :=
  coeffs.foldr (fun c acc => c + x * acc) 0

theorem evalPoly_eq_sum {K : Type} [CommRing K] (coeffs : List K) (x : K) :
    evalPoly coeffs x =
      ∑ t ∈ Finset.range coeffs.length, coeffs.getD t 0 * x ^ t := by
  induction coeffs with
  | nil => simp [evalPoly]
  | cons c cs ih =>
    show c + x * evalPoly cs x = _
    rw [ih, List.length_cons, Finset.sum_range_succ', Finset.mul_sum]
    have h0 : (c :: cs).getD 0 0 * x ^ 0 = c := by simp
    rw [h0]
    rw [add_comm]
    congr 1
    apply Finset.sum_congr rfl
    intro t ht
    have hget : (c :: cs).getD (t + 1) 0 = cs.getD t 0 := rfl
    rw [hget, pow_succ]
    ring

theorem list_eq_of_getD {α : Type} (l1 l2 : List α) (d : α) (hlen : l1.length = l2.length)
    (h : ∀ i, i < l1.length → l1.getD i d = l2.getD i d) : l1 = l2 := by
  apply List.ext_getElem hlen
  intro i h1 h2
  have hh := h i h1
  rw [List.getD_eq_getElem?_getD, List.getD_eq_getElem?_getD,
    List.getElem?_eq_getElem h1, List.getElem?_eq_getElem h2] at hh
  simpa using hh

theorem getD_map {α β : Type} (f : α → β) (l : List α) (i : Nat) (d : β) (d' : α)
    (h : i < l.length) : (l.map f).getD i d = f (l.getD i d') := by
  rw [List.getD_eq_getElem?_getD, List.getD_eq_getElem?_getD, List.getElem?_map,
    List.getElem?_eq_getElem h]
  simp

/-- C4: after `fft(coeffs, omega)` with a primitive root of the (power-of-two)
length, the entry at each index `i` is the polynomial with the original
coefficients evaluated at `omega ^ i` — the outputs are the evaluations at
`omega^0, omega^1, …` in natural index order after the bit-reversal step. -/
theorem fft_evaluation_order {K : Type} [Field K] (coeffs : List K) (omega : K) (lg : Nat)
    (hn : coeffs.length = 2 ^ lg) (hprim : IsPrimitiveRoot omega coeffs.length) :
    ∃ out, fft coeffs omega = PanicOr.ok out ∧ out.length = coeffs.length ∧
      ∀ i, i < coeffs.length → out.getD i 0 = evalPoly coeffs (omega ^ i) := by
  rw [hn] at hprim
  obtain ⟨out, h1, h2, h3⟩ := fft_eval_of_root coeffs omega lg hn
    (fun hlg => prim_root_pow_half omega lg hprim hlg)
  refine ⟨out, h1, h2, fun i hi => ?_⟩
  rw [h3 i hi, evalPoly_eq_sum]
  apply Finset.sum_congr rfl
  intro t ht
  rw [← pow_mul omega i t, mul_comm i t]

/-- The inverse-DFT sum: applying the forward transform with `omega⁻¹` to the
evaluations recovers `n` times the original coefficient. -/
theorem dft_inverse_sum {K : Type} [Field K] (coeffs : List K) (omega : K) (lg : Nat)
    (hprim : IsPrimitiveRoot omega (2 ^ lg)) (i : Nat) (hi : i < 2 ^ lg) :
    (∑ j ∈ Finset.range (2 ^ lg),
      (∑ k ∈ Finset.range (2 ^ lg), coeffs.getD k 0 * omega ^ (k * j)) * omega⁻¹ ^ (j * i)) =
      ((2 ^ lg : Nat) : K) * coeffs.getD i 0 := by
  have homega : omega ≠ 0 := hprim.ne_zero (by positivity)
  have hswap : (∑ j ∈ Finset.range (2 ^ lg),
      (∑ k ∈ Finset.range (2 ^ lg), coeffs.getD k 0 * omega ^ (k * j)) * omega⁻¹ ^ (j * i)) =
      ∑ k ∈ Finset.range (2 ^ lg),
        ∑ j ∈ Finset.range (2 ^ lg),
          coeffs.getD k 0 * (omega ^ k * omega⁻¹ ^ i) ^ j := by
    have h1 : ∀ j ∈ Finset.range (2 ^ lg),
        (∑ k ∈ Finset.range (2 ^ lg), coeffs.getD k 0 * omega ^ (k * j)) * omega⁻¹ ^ (j * i) =
        ∑ k ∈ Finset.range (2 ^ lg),
          coeffs.getD k 0 * (omega ^ k * omega⁻¹ ^ i) ^ j := by
      intro j hj
      rw [Finset.sum_mul]
      apply Finset.sum_congr rfl
      intro k hk
      rw [mul_pow, ← pow_mul omega k j, ← pow_mul omega⁻¹ i j, mul_comm i j]
      ring
    rw [Finset.sum_congr rfl h1, Finset.sum_comm]
  rw [hswap]
  have hterm : ∀ k ∈ Finset.range (2 ^ lg),
      (∑ j ∈ Finset.range (2 ^ lg), coeffs.getD k 0 * (omega ^ k * omega⁻¹ ^ i) ^ j) =
      if k = i then ((2 ^ lg : Nat) : K) * coeffs.getD i 0 else 0 := by
    intro k hk
    rw [Finset.mem_range] at hk
    by_cases hki : k = i
    · subst hki
      rw [if_pos rfl]
      have hone : omega ^ k * omega⁻¹ ^ k = 1 := by
        rw [inv_pow, mul_inv_cancel₀ (pow_ne_zero k homega)]
      rw [Finset.sum_congr rfl (fun j _ => by rw [hone, one_pow])]
      rw [Finset.sum_const, Finset.card_range, nsmul_eq_mul]
      ring
    · rw [if_neg hki]
      set z := omega ^ k * omega⁻¹ ^ i with hz
      have hzne : z ≠ 1 := by
        intro hcontra
        apply hki
        have : omega ^ k = omega ^ i := by
          rw [hz, inv_pow] at hcontra
          exact (mul_inv_eq_one₀ (pow_ne_zero i homega)).mp hcontra
        exact hprim.pow_inj hk hi this
      have hzn : z ^ (2 ^ lg) = 1 := by
        rw [hz, mul_pow, pow_right_comm omega k, pow_right_comm omega⁻¹ i,
          hprim.pow_eq_one, hprim.inv.pow_eq_one, one_pow, one_pow, one_mul]
      rw [← Finset.mul_sum, geom_sum_eq hzne, hzn, sub_self, zero_div, mul_zero]
  rw [Finset.sum_congr rfl hterm, Finset.sum_ite_eq' (Finset.range (2 ^ lg)) i]
  rw [if_pos (Finset.mem_range.mpr hi)]

/-- C3: FFT/IFFT round-trip — for every coefficient sequence of power-of-two
length and primitive root `omega` of that order, `fft` in place followed by
`ifft` with `omega⁻¹` restores exactly the original coefficients. -/
theorem fft_ifft_roundtrip {K : Type} [Field K] [DecidableEq K] (coeffs : List K)
    (omega : K) (lg : Nat) (hn : coeffs.length = 2 ^ lg)
    (hprim : IsPrimitiveRoot omega coeffs.length) :
    ∃ evals, fft coeffs omega = PanicOr.ok evals ∧
      ifft evals omega⁻¹ = PanicOr.ok coeffs := by
  rw [hn] at hprim
  obtain ⟨evals, h1, hlen, h3⟩ := fft_eval_of_root coeffs omega lg hn
    (fun hlg => prim_root_pow_half omega lg hprim hlg)
  refine ⟨evals, h1, ?_⟩
  have hlen2 : evals.length = 2 ^ lg := by rw [hlen, hn]
  obtain ⟨out2, h4, hlen4, h5⟩ := fft_eval_of_root evals omega⁻¹ lg hlen2
    (fun hlg => prim_root_pow_half omega⁻¹ lg hprim.inv hlg)
  have hcastn : ((2 ^ lg : Nat) : K) ≠ 0 := prim_root_cast_ne_zero omega lg hprim
  have hcast : ((evals.length : Nat) : K) ≠ 0 := by
    rw [hlen2]
    exact hcastn
  simp only [ifft]
  rw [h4]
  simp only [PanicOr.bind]
  rw [fieldInverse, if_neg hcast]
  show PanicOr.ok (List.map (fun x => x * ((evals.length : Nat) : K)⁻¹) out2) =
    PanicOr.ok coeffs
  congr 1
  refine list_eq_of_getD _ _ 0 ?_ ?_
  · rw [List.length_map, hlen4, hlen]
  · intro i hilen
    have hi : i < 2 ^ lg := by
      rw [List.length_map, hlen4, hlen2] at hilen
      exact hilen
    rw [getD_map _ _ _ _ 0 (by rw [hlen4, hlen2]; exact hi)]
    rw [h5 i (by rw [hlen2]; exact hi)]
    have hsum : (∑ t ∈ Finset.range evals.length, evals.getD t 0 * omega⁻¹ ^ (t * i)) =
        ((2 ^ lg : Nat) : K) * coeffs.getD i 0 := by
      rw [hlen2, ← dft_inverse_sum coeffs omega lg hprim i hi]
      apply Finset.sum_congr rfl
      intro j hj
      rw [Finset.mem_range] at hj
      rw [h3 j (by rw [hn]; exact hj), hn]
    rw [hsum, hlen2]
    rw [mul_comm (((2 ^ lg : Nat) : K)) (coeffs.getD i 0), mul_assoc,
      mul_inv_cancel₀ hcastn, mul_one]

/-- C10: `interpolate` unconditionally reads `domain[1]` before running the
IFFT, so any equal-length inputs of length at most 1 (including length 1, a
power of two) make it panic with an out-of-bounds index access instead of
returning a polynomial or reporting a domain-size error. -/
theorem interpolate_small_input_oob {K : Type} [Field K] [DecidableEq K]
    (evals domain : List K) (hlen : evals.length = domain.length)
    (hsmall : domain.length ≤ 1) :
    interpolate evals domain = PanicOr.panicked "index out of bounds" := by
  simp only [interpolate]
  rw [if_neg (by omega)]
  have h1 : domain[1]? = none := List.getElem?_eq_none (by omega)
  rw [h1]

/-- `fft` rejects non-power-of-two lengths at entry — by panicking. -/
theorem fft_not_power_of_two_panics {K : Type} [Field K] (coeffs : List K) (omega : K)
    (h : is_power_of_two coeffs.length = false) :
    fft coeffs omega = PanicOr.panicked "Length must be a power of 2" := by
  simp only [fft, h]
  rw [if_pos trivial]

/-- `interpolate` rejects length mismatches at entry — by panicking. -/
theorem interpolate_mismatch_panics {K : Type} [Field K] [DecidableEq K]
    (evals domain : List K) (h : evals.length ≠ domain.length) :
    interpolate evals domain = PanicOr.panicked "Evaluation and domain size mismatch" := by
  simp only [interpolate]
  rw [if_pos h]

/-! ## KZG embedding (`kgz.rs`)

The scalar field, the two curve groups and the pairing are external, trusted
components (`ark_bls12_381` / `ark_ec`); they are modelled abstractly: `K` a
commutative ring of scalars, `G1`, `G2` additive groups that are `K`-modules,
and a pairing function `e : G1 → G2 → GT` whose bilinearity
(`e (a•P) (b•Q) = (a*b) • e P Q`, the data model's
`pairing(a·P, b·Q) = pairing(P,Q)^(a·b)` written additively) is a hypothesis
of the theorems, exactly as the spec states it. -/

/-- `KZGParams` (kgz.rs): the SRS powers in `G1` plus `g2` and `g2·s`. -/
structure KZGParams (G1 G2 : Type) where
  powers_of_g : List G1
  g2 : G2
  g2_s : G2

/-- The accumulation loop of `setup`: `k` pushes of `power • g1`, with
`power *= s` after each push. -/
def setupPowers {K G1 : Type} [CommRing K] [AddCommGroup G1] [Module K G1]
    (g1 : G1) (s : K) : Nat → K → List G1
  | 0, _ => []
  | k + 1, power => power • g1 :: setupPowers g1 s k (power * s)

/-- Embedding of `KZGParams::setup`: the randomly drawn secret `s` is an
explicit parameter (the randomness source is external), and the generators of
`G1`/`G2` are supplied by the external curve library. -/
def KZGParams.setup {K G1 G2 : Type} [CommRing K] [AddCommGroup G1] [Module K G1]
    [AddCommGroup G2] [Module K G2] (g1gen : G1) (g2gen : G2) (s : K) (degree : Nat) :
    KZGParams G1 G2 :=
  { powers_of_g := setupPowers g1gen s (degree + 1) 1
    g2 := g2gen
    g2_s := s • g2gen }

/-- The accumulation loop of `commit`: panics as soon as the coefficient index
reaches `powers_of_g.len()`. -/
def commitLoop {K G1 : Type} [CommRing K] [AddCommGroup G1] [Module K G1]
    (powers : List G1) (acc : G1) (i : Nat) : List K → PanicOr G1
  | [] => .ok acc
  | c :: rest =>
      if h : i < powers.length then
        commitLoop powers (acc + c • powers.get ⟨i, h⟩) (i + 1) rest
      else .panicked "Polynomial degree too large for parameters"

/-- Embedding of `KZGParams::commit`. -/
def KZGParams.commit {K G1 G2 : Type} [CommRing K] [AddCommGroup G1] [Module K G1]
    (params : KZGParams G1 G2) (coeffs : List K) : PanicOr G1 :=
  commitLoop params.powers_of_g 0 0 coeffs

/-- Coefficient-wise polynomial subtraction with padding, modelling the
external `ark_poly` `Sub` on dense polynomials (used for `poly - [value]`). -/
def polySub {K : Type} [CommRing K] : List K → List K → List K
  | p, [] => p
  | [], c :: q => (0 - c) :: polySub [] q
  | a :: p, c :: q => (a - c) :: polySub p q

/-- Synthetic (Ruffini) division by the monic linear divisor `X - z`,
modelling the external `ark_poly` Euclidean division used by `open` — for a
linear monic divisor the Euclidean quotient/remainder are exactly these.  The
returned quotient list carries one trailing zero coefficient relative to the
source's normalized representation; it does not affect evaluation or the
committed group element. -/
def divmodLinear {K : Type} [CommRing K] (z : K) : List K → List K × K
  | [] => ([], 0)
  | c :: rest =>
      let qr := divmodLinear z rest
      (qr.2 :: qr.1, c + z * qr.2)

/-- Embedding of `KZGParams::open` (named `open'`; `open` is reserved in
Lean): evaluate, form the numerator `poly - [value]`, divide by `X - z`,
commit to the quotient. -/
def KZGParams.open' {K G1 G2 : Type} [CommRing K] [AddCommGroup G1] [Module K G1]
    (params : KZGParams G1 G2) (poly : List K) (z : K) : PanicOr (G1 × K) :=
  let value := evalPoly poly z
  let numerator := polySub poly [value]
  let quotient := (divmodLinear z numerator).1
  match params.commit quotient with
  | .panicked m => .panicked m
  | .ok proof => .ok (proof, value)

/-- Embedding of `KZGParams::verify`: the pairing check
`e(proof, g2_s - z·g2) == e(commitment - value·powers_of_g[0], g2)`. -/
def KZGParams.verify {K G1 G2 GT : Type} [CommRing K] [AddCommGroup G1] [Module K G1]
    [AddCommGroup G2] [Module K G2] [DecidableEq GT]
    (e : G1 → G2 → GT) (params : KZGParams G1 G2) (commitment proof : G1)
    (z value : K) : Bool :=
  decide (e proof (params.g2_s - z • params.g2) =
    e (commitment - value • params.powers_of_g.getD 0 0) params.g2)

theorem setupPowers_length {K G1 : Type} [CommRing K] [AddCommGroup G1] [Module K G1]
    (g1 : G1) (s : K) : ∀ (k : Nat) (pw : K), (setupPowers g1 s k pw).length = k := by
  intro k
  induction k with
  | zero => intro pw; rfl
  | succ k ih =>
    intro pw
    show (pw • g1 :: setupPowers g1 s k (pw * s)).length = k + 1
    rw [List.length_cons, ih]

theorem setupPowers_getD {K G1 : Type} [CommRing K] [AddCommGroup G1] [Module K G1]
    (g1 : G1) (s : K) : ∀ (k : Nat) (pw : K) (i : Nat), i < k →
    (setupPowers g1 s k pw).getD i 0 = (pw * s ^ i) • g1 := by
  intro k
  induction k with
  | zero => intro pw i hi; omega
  | succ k ih =>
    intro pw i hi
    show (pw • g1 :: setupPowers g1 s k (pw * s)).getD i 0 = _
    cases i with
    | zero =>
      show pw • g1 = (pw * s ^ 0) • g1
      rw [pow_zero, mul_one]
    | succ i =>
      show (setupPowers g1 s k (pw * s)).getD i 0 = _
      rw [ih (pw * s) i (by omega)]
      congr 1
      rw [pow_succ]
      ring

theorem setup_powers_length {K G1 G2 : Type} [CommRing K] [AddCommGroup G1] [Module K G1]
    [AddCommGroup G2] [Module K G2] (g1gen : G1) (g2gen : G2) (s : K) (d : Nat) :
    (KZGParams.setup g1gen g2gen s d).powers_of_g.length = d + 1 :=
  setupPowers_length g1gen s (d + 1) 1

theorem setup_powers_getD {K G1 G2 : Type} [CommRing K] [AddCommGroup G1] [Module K G1]
    [AddCommGroup G2] [Module K G2] (g1gen : G1) (g2gen : G2) (s : K) (d : Nat)
    (i : Nat) (hi : i ≤ d) :
    (KZGParams.setup g1gen g2gen s d).powers_of_g.getD i 0 = s ^ i • g1gen := by
  show (setupPowers g1gen s (d + 1) 1).getD i 0 = _
  rw [setupPowers_getD g1gen s (d + 1) 1 i (by omega), one_mul]

theorem commitLoop_ok {K G1 : Type} [CommRing K] [AddCommGroup G1] [Module K G1]
    (powers : List G1) :
    ∀ (coeffs : List K) (i : Nat) (acc : G1), i + coeffs.length ≤ powers.length →
    commitLoop powers acc i coeffs =
      PanicOr.ok (acc + ∑ j ∈ Finset.range coeffs.length,
        coeffs.getD j 0 • powers.getD (i + j) 0) := by
  intro coeffs
  induction coeffs with
  | nil =>
    intro i acc hle
    show PanicOr.ok acc = _
    simp
  | cons c rest ih =>
    intro i acc hle
    have hi : i < powers.length := by
      have := rest.length
      simp only [List.length_cons] at hle
      omega
    show (if h : i < powers.length then
        commitLoop powers (acc + c • powers.get ⟨i, h⟩) (i + 1) rest
      else PanicOr.panicked "Polynomial degree too large for parameters") = _
    rw [dif_pos hi]
    rw [ih (i + 1) _ (by simp only [List.length_cons] at hle; omega)]
    congr 1
    have hget : powers.get ⟨i, hi⟩ = powers.getD i 0 := by
      rw [List.getD_eq_getElem?_getD, List.getElem?_eq_getElem hi]
      rfl
    rw [hget]
    rw [List.length_cons, Finset.sum_range_succ']
    have h0 : (c :: rest).getD 0 0 • powers.getD (i + 0) 0 = c • powers.getD i 0 := by
      simp
    rw [h0]
    have hterm : ∀ j, (c :: rest).getD (j + 1) 0 • powers.getD (i + (j + 1)) 0 =
        rest.getD j 0 • powers.getD (i + 1 + j) 0 := by
      intro j
      have e1 : (c :: rest).getD (j + 1) 0 = rest.getD j 0 := rfl
      have e2 : i + (j + 1) = i + 1 + j := by omega
      rw [e1, e2]
    rw [Finset.sum_congr rfl (fun j _ => hterm j)]
    abel

theorem commitLoop_panics {K G1 : Type} [CommRing K] [AddCommGroup G1] [Module K G1]
    (powers : List G1) :
    ∀ (coeffs : List K) (i : Nat) (acc : G1),
    powers.length < i + coeffs.length → 0 < coeffs.length →
    commitLoop powers acc i coeffs =
      PanicOr.panicked "Polynomial degree too large for parameters" := by
  intro coeffs
  induction coeffs with
  | nil =>
    intro i acc h1 h2
    simp at h2
  | cons c rest ih =>
    intro i acc h1 _
    show (if h : i < powers.length then
        commitLoop powers (acc + c • powers.get ⟨i, h⟩) (i + 1) rest
      else PanicOr.panicked "Polynomial degree too large for parameters") = _
    by_cases hi : i < powers.length
    · rw [dif_pos hi]
      simp only [List.length_cons] at h1
      exact ih (i + 1) _ (by omega) (by omega)
    · rw [dif_neg hi]

/-- `commit` succeeds exactly on coefficient lists that fit the SRS and panics
("degree too large") otherwise. -/
theorem commit_ok {K G1 G2 : Type} [CommRing K] [AddCommGroup G1] [Module K G1]
    (params : KZGParams G1 G2) (coeffs : List K)
    (h : coeffs.length ≤ params.powers_of_g.length) :
    params.commit coeffs = PanicOr.ok
      (∑ j ∈ Finset.range coeffs.length,
        coeffs.getD j 0 • params.powers_of_g.getD j 0) := by
  show commitLoop params.powers_of_g 0 0 coeffs = _
  rw [commitLoop_ok params.powers_of_g coeffs 0 0 (by omega)]
  simp

theorem commit_panics {K G1 G2 : Type} [CommRing K] [AddCommGroup G1] [Module K G1]
    (params : KZGParams G1 G2) (coeffs : List K)
    (h : params.powers_of_g.length < coeffs.length) :
    params.commit coeffs =
      PanicOr.panicked "Polynomial degree too large for parameters" := by
  show commitLoop params.powers_of_g 0 0 coeffs = _
  exact commitLoop_panics params.powers_of_g coeffs 0 0 (by omega) (by omega)

theorem polySub_length {K : Type} [CommRing K] :
    ∀ (p q : List K), (polySub p q).length = max p.length q.length := by
  intro p
  induction p with
  | nil =>
    intro q
    induction q with
    | nil => rfl
    | cons c q ihq =>
      show ((0 - c) :: polySub [] q).length = _
      rw [List.length_cons, ihq]
      simp
  | cons a p ihp =>
    intro q
    cases q with
    | nil => simp [polySub]
    | cons c q =>
      show ((a - c) :: polySub p q).length = _
      rw [List.length_cons, ihp]
      simp [Nat.succ_max_succ]

theorem evalPoly_nil {K : Type} [CommRing K] (x : K) : evalPoly ([] : List K) x = 0 := rfl

theorem evalPoly_cons {K : Type} [CommRing K] (c : K) (p : List K) (x : K) :
    evalPoly (c :: p) x = c + x * evalPoly p x := rfl

theorem evalPoly_singleton {K : Type} [CommRing K] (c x : K) : evalPoly [c] x = c := by
  rw [evalPoly_cons, evalPoly_nil]
  ring

theorem evalPoly_polySub {K : Type} [CommRing K] :
    ∀ (p q : List K) (x : K), evalPoly (polySub p q) x = evalPoly p x - evalPoly q x := by
  intro p
  induction p with
  | nil =>
    intro q
    induction q with
    | nil =>
      intro x
      show evalPoly ([] : List K) x = _
      rw [evalPoly_nil]
      ring
    | cons c q ihq =>
      intro x
      show evalPoly ((0 - c) :: polySub [] q) x = _
      rw [evalPoly_cons, ihq x, evalPoly_nil, evalPoly_cons]
      ring
  | cons a p ihp =>
    intro q
    cases q with
    | nil =>
      intro x
      show evalPoly (a :: p) x = _
      rw [evalPoly_nil]
      ring
    | cons c q =>
      intro x
      show evalPoly ((a - c) :: polySub p q) x = _
      rw [evalPoly_cons, ihp q x, evalPoly_cons, evalPoly_cons]
      ring

theorem divmodLinear_eval {K : Type} [CommRing K] (z : K) :
    ∀ (p : List K) (x : K),
    evalPoly p x = evalPoly (divmodLinear z p).1 x * (x - z) + (divmodLinear z p).2 := by
  intro p
  induction p with
  | nil =>
    intro x
    show (0 : K) = evalPoly ([] : List K) x * (x - z) + 0
    rw [evalPoly_nil]
    ring
  | cons c rest ih =>
    intro x
    show evalPoly (c :: rest) x =
      evalPoly ((divmodLinear z rest).2 :: (divmodLinear z rest).1) x * (x - z) +
        (c + z * (divmodLinear z rest).2)
    rw [evalPoly_cons, evalPoly_cons, ih x]
    ring

theorem divmodLinear_rem {K : Type} [CommRing K] (z : K) (p : List K) :
    (divmodLinear z p).2 = evalPoly p z := by
  have h := divmodLinear_eval z p z
  rw [sub_self, mul_zero, zero_add] at h
  exact h.symm

theorem divmodLinear_length {K : Type} [CommRing K] (z : K) :
    ∀ (p : List K), (divmodLinear z p).1.length = p.length := by
  intro p
  induction p with
  | nil => rfl
  | cons c rest ih =>
    show ((divmodLinear z rest).2 :: (divmodLinear z rest).1).length = _
    rw [List.length_cons, ih, List.length_cons]

/-- Committing with an SRS built by `setup` evaluates the polynomial "in the
exponent": the result is `p(s) • g1`. -/
theorem commit_setup_eval {K G1 G2 : Type} [CommRing K] [AddCommGroup G1] [Module K G1]
    [AddCommGroup G2] [Module K G2] (g1gen : G1) (g2gen : G2) (s : K) (d : Nat)
    (coeffs : List K) (h : coeffs.length ≤ d + 1) :
    (KZGParams.setup g1gen g2gen s d).commit coeffs =
      PanicOr.ok (evalPoly coeffs s • g1gen) := by
  rw [commit_ok _ _ (by rw [setup_powers_length]; omega)]
  congr 1
  rw [evalPoly_eq_sum, Finset.sum_smul]
  apply Finset.sum_congr rfl
  intro j hj
  rw [Finset.mem_range] at hj
  rw [setup_powers_getD g1gen g2gen s d j (by omega), smul_smul]

/-- The defining identity of the opening quotient: `q(s)·(s - z) = p(s) - p(z)`
(the division is exact because `z` is a root of the numerator). -/
theorem quotient_eval_identity {K : Type} [CommRing K] (poly : List K) (z s : K) :
    evalPoly (divmodLinear z (polySub poly [evalPoly poly z])).1 s * (s - z) =
      evalPoly poly s - evalPoly poly z := by
  have h := divmodLinear_eval z (polySub poly [evalPoly poly z]) s
  rw [evalPoly_polySub, evalPoly_singleton] at h
  have hrem : (divmodLinear z (polySub poly [evalPoly poly z])).2 = 0 := by
    rw [divmodLinear_rem, evalPoly_polySub, evalPoly_singleton, sub_self]
  rw [hrem, add_zero] at h
  exact h.symm

theorem open_setup_eq {K G1 G2 : Type} [CommRing K] [AddCommGroup G1] [Module K G1]
    [AddCommGroup G2] [Module K G2] (g1gen : G1) (g2gen : G2) (s z : K) (d : Nat)
    (poly : List K) (hdeg : poly.length ≤ d + 1) :
    KZGParams.open' (KZGParams.setup g1gen g2gen s d) poly z =
      PanicOr.ok
        (evalPoly (divmodLinear z (polySub poly [evalPoly poly z])).1 s • g1gen,
          evalPoly poly z) := by
  have hq : (divmodLinear z (polySub poly [evalPoly poly z])).1.length ≤ d + 1 := by
    rw [divmodLinear_length, polySub_length]
    simp only [List.length_singleton]
    omega
  simp only [KZGParams.open']
  rw [commit_setup_eval g1gen g2gen s d _ hq]

/-- C1, KZG completeness: for an SRS from `setup` and any polynomial fitting
the SRS, `verify(commit(poly), open(poly, z).proof, z, open(poly, z).value)`
returns `true`, assuming the pairing is bilinear as the data model states. -/
theorem kzg_completeness {K G1 G2 GT : Type} [CommRing K] [AddCommGroup G1] [Module K G1]
    [AddCommGroup G2] [Module K G2] [AddCommGroup GT] [Module K GT] [DecidableEq GT]
    (e : G1 → G2 → GT) (g1gen : G1) (g2gen : G2)
    (hbil : ∀ (a b : K) (P : G1) (Q : G2), e (a • P) (b • Q) = (a * b) • e P Q)
    (s z : K) (d : Nat) (poly : List K) (hdeg : poly.length ≤ d + 1) :
    ∃ C pf v, (KZGParams.setup g1gen g2gen s d).commit poly = PanicOr.ok C ∧
      KZGParams.open' (KZGParams.setup g1gen g2gen s d) poly z = PanicOr.ok (pf, v) ∧
      KZGParams.verify e (KZGParams.setup g1gen g2gen s d) C pf z v = true := by
  refine ⟨evalPoly poly s • g1gen,
    evalPoly (divmodLinear z (polySub poly [evalPoly poly z])).1 s • g1gen,
    evalPoly poly z,
    commit_setup_eval g1gen g2gen s d poly hdeg,
    open_setup_eq g1gen g2gen s z d poly hdeg, ?_⟩
  have hbil1 : ∀ (a : K) (P : G1), e (a • P) g2gen = a • e P g2gen := by
    intro a P
    have h := hbil a 1 P g2gen
    rwa [one_smul, mul_one] at h
  have hp0 : (KZGParams.setup g1gen g2gen s d).powers_of_g.getD 0 0 = g1gen := by
    rw [setup_powers_getD g1gen g2gen s d 0 (by omega), pow_zero, one_smul]
  rw [KZGParams.verify, hp0]
  have hg2 : (KZGParams.setup g1gen g2gen s d).g2 = g2gen := rfl
  have hg2s : (KZGParams.setup g1gen g2gen s d).g2_s = s • g2gen := rfl
  rw [hg2, hg2s]
  rw [← sub_smul s z g2gen]
  rw [← sub_smul (evalPoly poly s) (evalPoly poly z) g1gen]
  rw [hbil, hbil1]
  rw [quotient_eval_identity poly z s]
  simp

/-- C2, KZG soundness (negative direction): with the same commitment and
proof, any claimed value different from `poly.evaluate(z)` makes `verify`
return `false`, assuming additionally that the pairing is non-degenerate
(`e(g1, g2) ≠ 0` in the additively written target, which has no zero
smul-divisors over the scalars). -/
theorem kzg_soundness_neg {K G1 G2 GT : Type} [CommRing K] [AddCommGroup G1] [Module K G1]
    [AddCommGroup G2] [Module K G2] [AddCommGroup GT] [Module K GT] [DecidableEq GT]
    [NoZeroSMulDivisors K GT]
    (e : G1 → G2 → GT) (g1gen : G1) (g2gen : G2)
    (hbil : ∀ (a b : K) (P : G1) (Q : G2), e (a • P) (b • Q) = (a * b) • e P Q)
    (hnd : e g1gen g2gen ≠ 0)
    (s z : K) (d : Nat) (poly : List K) (hdeg : poly.length ≤ d + 1)
    (v' : K) (hv : v' ≠ evalPoly poly z) :
    ∀ C pf v, (KZGParams.setup g1gen g2gen s d).commit poly = PanicOr.ok C →
      KZGParams.open' (KZGParams.setup g1gen g2gen s d) poly z = PanicOr.ok (pf, v) →
      KZGParams.verify e (KZGParams.setup g1gen g2gen s d) C pf z v' = false := by
  intro C pf v hC hopen
  rw [commit_setup_eval g1gen g2gen s d poly hdeg] at hC
  rw [open_setup_eq g1gen g2gen s z d poly hdeg] at hopen
  injection hC with hC
  injection hopen with hopen
  injection hopen with hpf hval
  subst hC
  subst hpf
  have hbil1 : ∀ (a : K) (P : G1), e (a • P) g2gen = a • e P g2gen := by
    intro a P
    have h := hbil a 1 P g2gen
    rwa [one_smul, mul_one] at h
  have hp0 : (KZGParams.setup g1gen g2gen s d).powers_of_g.getD 0 0 = g1gen := by
    rw [setup_powers_getD g1gen g2gen s d 0 (by omega), pow_zero, one_smul]
  rw [KZGParams.verify, hp0]
  have hg2 : (KZGParams.setup g1gen g2gen s d).g2 = g2gen := rfl
  have hg2s : (KZGParams.setup g1gen g2gen s d).g2_s = s • g2gen := rfl
  rw [hg2, hg2s]
  rw [← sub_smul s z g2gen]
  rw [← sub_smul (evalPoly poly s) v' g1gen]
  rw [hbil, hbil1]
  rw [quotient_eval_identity poly z s]
  apply decide_eq_false
  intro hcontra
  have h0 : (v' - evalPoly poly z) • e g1gen g2gen = 0 := by
    have h2 : v' - evalPoly poly z =
        (evalPoly poly s - evalPoly poly z) - (evalPoly poly s - v') := by ring
    rw [h2, sub_smul, hcontra, sub_self]
  rcases smul_eq_zero.mp h0 with h1 | h1
  · exact hv (sub_eq_zero.mp h1)
  · exact hnd h1

/-- C7, SRS correctness: `setup(d, s)` yields `d+1` powers
`powers_of_g[i] = s^i • g1`, so `powers_of_g[0]` is the `G1` generator;
`g2` is the `G2` generator, `g2_s = s • g2`; and consequently
`e(powers_of_g[1], g2) = e(powers_of_g[0], g2_s)` whenever the index-1 entry
exists (`d ≥ 1`), assuming bilinearity. -/
theorem kzg_srs_shape {K G1 G2 GT : Type} [CommRing K] [AddCommGroup G1] [Module K G1]
    [AddCommGroup G2] [Module K G2] [AddCommGroup GT] [Module K GT]
    (e : G1 → G2 → GT) (g1gen : G1) (g2gen : G2)
    (hbil : ∀ (a b : K) (P : G1) (Q : G2), e (a • P) (b • Q) = (a * b) • e P Q)
    (s : K) (d : Nat) :
    (KZGParams.setup g1gen g2gen s d).powers_of_g.length = d + 1 ∧
    (∀ i, i ≤ d → (KZGParams.setup g1gen g2gen s d).powers_of_g.getD i 0 = s ^ i • g1gen) ∧
    (KZGParams.setup g1gen g2gen s d).powers_of_g.getD 0 0 = g1gen ∧
    (KZGParams.setup g1gen g2gen s d).g2 = g2gen ∧
    (KZGParams.setup g1gen g2gen s d).g2_s = s • g2gen ∧
    (1 ≤ d →
      e ((KZGParams.setup g1gen g2gen s d).powers_of_g.getD 1 0)
        (KZGParams.setup g1gen g2gen s d).g2 =
      e ((KZGParams.setup g1gen g2gen s d).powers_of_g.getD 0 0)
        (KZGParams.setup g1gen g2gen s d).g2_s) := by
  refine ⟨setup_powers_length g1gen g2gen s d,
    fun i hi => setup_powers_getD g1gen g2gen s d i hi,
    by rw [setup_powers_getD g1gen g2gen s d 0 (by omega), pow_zero, one_smul],
    rfl, rfl, fun hd => ?_⟩
  rw [setup_powers_getD g1gen g2gen s d 1 hd,
    setup_powers_getD g1gen g2gen s d 0 (by omega)]
  show e (s ^ 1 • g1gen) g2gen = e (s ^ 0 • g1gen) (s • g2gen)
  rw [pow_one, pow_zero, one_smul]
  have h1 := hbil s 1 g1gen g2gen
  rw [one_smul, mul_one] at h1
  have h2 := hbil 1 s g1gen g2gen
  rw [one_smul, one_mul] at h2
  rw [h1, h2]

/-! ## Circuit embedding (`circuit.rs`) -/

/-- The circuit scalar type `F(u64)` of `circuit.rs`, whose `Add`/`Mul` impls
are `u64::wrapping_add` / `wrapping_mul`: arithmetic modulo `2^64`, i.e.
`Fin (2^64)` (whose `+`/`*` are `(a + b) % 2^64` / `(a * b) % 2^64`). -/
abbrev F : Type := Fin (2 ^ 64)

/-- `GateType` (circuit.rs). -/
inductive GateType where
  | Add : GateType
  | Mul : GateType
deriving DecidableEq, Repr

/-- `Wire` (circuit.rs). -/
structure Wire where
  index : Nat
  value : F
deriving DecidableEq, Repr

/-- `Gate` (circuit.rs). -/
structure Gate where
  gate_type : GateType
  left_wire : Wire
  right_wire : Wire
  output_wire : Wire
deriving DecidableEq, Repr

/-- `CircuitSelectors` (circuit.rs). -/
structure CircuitSelectors where
  q_add : List F
  q_mul : List F
  q_c : List F
deriving DecidableEq, Repr

/-- `Circuit` (circuit.rs). -/
structure Circuit where
  n : Nat
  a : List F
  b : List F
  c : List F
  gates : List Gate
  selectors : CircuitSelectors
deriving DecidableEq, Repr

/-- `Circuit::new(size)`: empty wire-value and gate sequences, selector
sequences of length `size` initialized to the additive identity. -/
def Circuit.new (size : Nat) : Circuit :=
  { n := size
    a := []
    b := []
    c := []
    gates := []
    selectors :=
      { q_add := List.replicate size 0
        q_mul := List.replicate size 0
        q_c := List.replicate size 0 } }

/-- `Circuit::add_gate`: panic when the circuit is full (checked before any
mutation); otherwise set the selector at the new index to the multiplicative
identity for the gate's type and append the wire values and the gate. -/
def Circuit.add_gate (c : Circuit) (gate : Gate) : PanicOr Circuit :=
  let idx := c.gates.length
  if idx ≥ c.n then
    .panicked ("Circuit is full. Cannot add more than " ++ toString c.n ++ " gates.")
  else
    .ok { c with
      a := c.a ++ [gate.left_wire.value]
      b := c.b ++ [gate.right_wire.value]
      c := c.c ++ [gate.output_wire.value]
      gates := c.gates ++ [gate]
      selectors :=
        match gate.gate_type with
        | GateType.Add => { c.selectors with q_add := c.selectors.q_add.set idx 1 }
        | GateType.Mul => { c.selectors with q_mul := c.selectors.q_mul.set idx 1 } }

/-- The loop of `Circuit::verify_constraints` (enumerated gates, reading
`a[i]`, `b[i]`, `c[i]`; reading out of bounds would be a Rust panic, recorded
here as the panicking branch). -/
def verifyLoop (cir : Circuit) : Nat → List Gate → PanicOr Bool
  | _, [] => .ok true
  | i, g :: rest =>
      if h : i < cir.a.length ∧ i < cir.b.length ∧ i < cir.c.length then
        match g.gate_type with
        | GateType.Add =>
            if cir.a.getD i 0 + cir.b.getD i 0 ≠ cir.c.getD i 0 then .ok false
            else verifyLoop cir (i + 1) rest
        | GateType.Mul =>
            if cir.a.getD i 0 * cir.b.getD i 0 ≠ cir.c.getD i 0 then .ok false
            else verifyLoop cir (i + 1) rest
      else .panicked "index out of bounds"

/-- `Circuit::verify_constraints`. -/
def Circuit.verify_constraints (c : Circuit) : PanicOr Bool :=
  verifyLoop c 0 c.gates

/-- A sequence of `add_gate` calls (stopping at the first panic). -/
def Circuit.addGateList : Circuit → List Gate → PanicOr Circuit
  | c, [] => .ok c
  | c, g :: gs => PanicOr.bind (c.add_gate g) (fun c' => c'.addGateList gs)

/-- The per-gate constraint: `a + b = c` for an `Add` gate, `a * b = c` for a
`Mul` gate, in the wrapping arithmetic of `F`. -/
def gateOk (av bv cv : F) : GateType → Prop
  | GateType.Add => av + bv = cv
  | GateType.Mul => av * bv = cv

instance (av bv cv : F) (g : GateType) : Decidable (gateOk av bv cv g) :=
  match g with
  | GateType.Add => inferInstanceAs (Decidable (av + bv = cv))
  | GateType.Mul => inferInstanceAs (Decidable (av * bv = cv))

theorem PanicOr.bind_ok {α β : Type} (a : α) (f : α → PanicOr β) :
    PanicOr.bind (.ok a) f = f a := rfl

theorem PanicOr.bind_panicked {α β : Type} (m : String) (f : α → PanicOr β) :
    PanicOr.bind (.panicked m) f = (.panicked m : PanicOr β) := rfl

theorem verifyLoop_spec (cir : Circuit) :
    ∀ (rest : List Gate) (i : Nat),
    i + rest.length ≤ cir.a.length → i + rest.length ≤ cir.b.length →
    i + rest.length ≤ cir.c.length →
    ∃ bres, verifyLoop cir i rest = PanicOr.ok bres ∧
      (bres = true ↔ ∀ j, (hj : j < rest.length) →
        gateOk (cir.a.getD (i + j) 0) (cir.b.getD (i + j) 0) (cir.c.getD (i + j) 0)
          (rest.get ⟨j, hj⟩).gate_type) := by
  intro rest
  induction rest with
  | nil =>
    intro i h1 h2 h3
    refine ⟨true, rfl, ?_⟩
    constructor
    · intro _ j hj
      exact absurd hj (by simp)
    · intro _
      rfl
  | cons g rest ih =>
    intro i h1 h2 h3
    simp only [List.length_cons] at h1 h2 h3
    have hia : i < cir.a.length := by omega
    have hib : i < cir.b.length := by omega
    have hic : i < cir.c.length := by omega
    rw [verifyLoop, dif_pos ⟨hia, hib, hic⟩]
    cases hgt : g.gate_type with
    | Add =>
      by_cases hviol : cir.a.getD i 0 + cir.b.getD i 0 ≠ cir.c.getD i 0
      · rw [if_pos hviol]
        refine ⟨false, rfl, ?_⟩
        constructor
        · intro hcontra
          exact absurd hcontra (by simp)
        · intro hall
          exfalso
          have h0 := hall 0 (by simp)
          have hg0 : ((g :: rest).get ⟨0, by simp⟩) = g := rfl
          rw [hg0, hgt] at h0
          simp only [gateOk, Nat.add_zero] at h0
          exact hviol h0
      · rw [if_neg hviol]
        push_neg at hviol
        obtain ⟨bres, heq', hiff⟩ := ih (i + 1) (by omega) (by omega) (by omega)
        refine ⟨bres, heq', ?_⟩
        rw [hiff]
        constructor
        · intro hall j hj
          cases j with
          | zero =>
            have hg0 : ((g :: rest).get ⟨0, hj⟩) = g := rfl
            rw [hg0, hgt]
            simp only [gateOk, Nat.add_zero]
            exact hviol
          | succ j =>
            simp only [List.length_cons] at hj
            have hj' : j < rest.length := by omega
            have hthis := hall j hj'
            have hg : ((g :: rest).get ⟨j + 1, hj⟩) = rest.get ⟨j, hj'⟩ := rfl
            rw [hg]
            have hidx : i + (j + 1) = i + 1 + j := by omega
            rw [hidx]
            exact hthis
        · intro hall j hj
          have hj1 : j + 1 < (g :: rest).length := by simp; omega
          have hthis := hall (j + 1) hj1
          have hg : ((g :: rest).get ⟨j + 1, hj1⟩) = rest.get ⟨j, hj⟩ := rfl
          rw [hg] at hthis
          have hidx : i + (j + 1) = i + 1 + j := by omega
          rw [hidx] at hthis
          exact hthis
    | Mul =>
      by_cases hviol : cir.a.getD i 0 * cir.b.getD i 0 ≠ cir.c.getD i 0
      · rw [if_pos hviol]
        refine ⟨false, rfl, ?_⟩
        constructor
        · intro hcontra
          exact absurd hcontra (by simp)
        · intro hall
          exfalso
          have h0 := hall 0 (by simp)
          have hg0 : ((g :: rest).get ⟨0, by simp⟩) = g := rfl
          rw [hg0, hgt] at h0
          simp only [gateOk, Nat.add_zero] at h0
          exact hviol h0
      · rw [if_neg hviol]
        push_neg at hviol
        obtain ⟨bres, heq', hiff⟩ := ih (i + 1) (by omega) (by omega) (by omega)
        refine ⟨bres, heq', ?_⟩
        rw [hiff]
        constructor
        · intro hall j hj
          cases j with
          | zero =>
            have hg0 : ((g :: rest).get ⟨0, hj⟩) = g := rfl
            rw [hg0, hgt]
            simp only [gateOk, Nat.add_zero]
            exact hviol
          | succ j =>
            simp only [List.length_cons] at hj
            have hj' : j < rest.length := by omega
            have hthis := hall j hj'
            have hg : ((g :: rest).get ⟨j + 1, hj⟩) = rest.get ⟨j, hj'⟩ := rfl
            rw [hg]
            have hidx : i + (j + 1) = i + 1 + j := by omega
            rw [hidx]
            exact hthis
        · intro hall j hj
          have hj1 : j + 1 < (g :: rest).length := by simp; omega
          have hthis := hall (j + 1) hj1
          have hg : ((g :: rest).get ⟨j + 1, hj1⟩) = rest.get ⟨j, hj⟩ := rfl
          rw [hg] at hthis
          have hidx : i + (j + 1) = i + 1 + j := by omega
          rw [hidx] at hthis
          exact hthis

/-- C6, circuit constraint check: for every circuit whose wire-value sequences
are as long as its gate sequence (every circuit reachable through `new` /
`add_gate`), `verify_constraints` never fails, and returns `true` exactly when
every recorded gate satisfies its constraint — `a[i] + b[i] = c[i]` for `Add`
gates and `a[i] * b[i] = c[i]` for `Mul` gates, in the wrapping arithmetic of
the circuit's scalar type `F`. -/
theorem verify_constraints_iff (c : Circuit)
    (ha : c.a.length = c.gates.length) (hb : c.b.length = c.gates.length)
    (hc : c.c.length = c.gates.length) :
    ∃ bres, c.verify_constraints = PanicOr.ok bres ∧
      (bres = true ↔ ∀ i, (h : i < c.gates.length) →
        gateOk (c.a.getD i 0) (c.b.getD i 0) (c.c.getD i 0)
          (c.gates.get ⟨i, h⟩).gate_type) := by
  obtain ⟨bres, heq, hiff⟩ :=
    verifyLoop_spec c c.gates 0 (by omega) (by omega) (by omega)
  refine ⟨bres, heq, ?_⟩
  rw [hiff]
  constructor
  · intro hall i hi
    have hthis := hall i hi
    rw [Nat.zero_add] at hthis
    exact hthis
  · intro hall j hj
    have hthis := hall j hj
    rw [Nat.zero_add]
    exact hthis

/-- C9, capacity boundary: for every circuit whose recorded-gate count does
not exceed its capacity (true of every reachable circuit, including those of
capacity 0 or 1), `add_gate` fails exactly when the count equals the capacity
`n`; the check precedes any mutation, and a successful call appends exactly
one entry to each of `a`, `b`, `c` and `gates` and keeps the capacity. -/
theorem add_gate_capacity_boundary (c : Circuit) (g : Gate)
    (hlen : c.gates.length ≤ c.n) :
    ((∃ m, c.add_gate g = PanicOr.panicked m) ↔ c.gates.length = c.n) ∧
    (∀ c', c.add_gate g = PanicOr.ok c' →
      c'.a = c.a ++ [g.left_wire.value] ∧
      c'.b = c.b ++ [g.right_wire.value] ∧
      c'.c = c.c ++ [g.output_wire.value] ∧
      c'.gates = c.gates ++ [g] ∧
      c'.n = c.n) := by
  constructor
  · constructor
    · rintro ⟨m, hm⟩
      by_contra hne
      have hlt : c.gates.length < c.n := by omega
      simp only [Circuit.add_gate] at hm
      rw [if_neg (by omega)] at hm
      exact PanicOr.noConfusion hm
    · intro heq
      refine ⟨"Circuit is full. Cannot add more than " ++ toString c.n ++ " gates.", ?_⟩
      simp only [Circuit.add_gate]
      rw [if_pos (by omega)]
  · intro c' hok
    simp only [Circuit.add_gate] at hok
    by_cases hfull : c.gates.length ≥ c.n
    · rw [if_pos hfull] at hok
      exact PanicOr.noConfusion hok
    · rw [if_neg hfull] at hok
      injection hok with hok
      subst hok
      exact ⟨rfl, rfl, rfl, rfl, rfl⟩

/-- The circuit representation invariant of the spec's data model: the three
wire-value sequences and the gate sequence share a common length bounded by
the capacity; the selector sequences have length `n`; at each occupied index
exactly the selector of the gate's type is the multiplicative identity and the
other is the additive identity; every selector entry at an unoccupied index,
and every `q_c` entry, is the additive identity. -/
def CircuitInv (c : Circuit) : Prop :=
  c.a.length = c.gates.length ∧
  c.b.length = c.gates.length ∧
  c.c.length = c.gates.length ∧
  c.gates.length ≤ c.n ∧
  c.selectors.q_add.length = c.n ∧
  c.selectors.q_mul.length = c.n ∧
  c.selectors.q_c.length = c.n ∧
  (∀ i, (h : i < c.gates.length) →
    ((c.gates.get ⟨i, h⟩).gate_type = GateType.Add →
      c.selectors.q_add.getD i 0 = 1 ∧ c.selectors.q_mul.getD i 0 = 0) ∧
    ((c.gates.get ⟨i, h⟩).gate_type = GateType.Mul →
      c.selectors.q_add.getD i 0 = 0 ∧ c.selectors.q_mul.getD i 0 = 1)) ∧
  (∀ i, c.gates.length ≤ i →
    c.selectors.q_add.getD i 0 = 0 ∧ c.selectors.q_mul.getD i 0 = 0) ∧
  (∀ i, c.selectors.q_c.getD i 0 = 0)

theorem getD_replicate {α : Type} (n i : Nat) (x : α) :
    (List.replicate n x).getD i x = x := by
  rw [List.getD_eq_getElem?_getD]
  rcases lt_or_ge i n with h | h
  · rw [List.getElem?_eq_getElem (by simpa using h)]
    simp
  · rw [List.getElem?_eq_none (by simpa using h)]
    rfl

theorem circuitInv_new (n : Nat) : CircuitInv (Circuit.new n) := by
  refine ⟨rfl, rfl, rfl, by simp [Circuit.new], by simp [Circuit.new],
    by simp [Circuit.new], by simp [Circuit.new], ?_, ?_, ?_⟩
  · intro i h
    exact absurd h (by simp [Circuit.new])
  · intro i _
    exact ⟨getD_replicate n i 0, getD_replicate n i 0⟩
  · intro i
    exact getD_replicate n i 0

theorem getElem_append_right_singleton {α : Type} (l : List α) (x : α)
    (h : l.length < (l ++ [x]).length) : (l ++ [x]).get ⟨l.length, h⟩ = x := by
  rw [List.get_eq_getElem, List.getElem_append]
  rw [dif_neg (Nat.lt_irrefl l.length)]
  simp

theorem getElem_append_left' {α : Type} (l : List α) (x : α) (i : Nat)
    (hi : i < l.length) (h : i < (l ++ [x]).length) :
    (l ++ [x]).get ⟨i, h⟩ = l.get ⟨i, hi⟩ := by
  rw [List.get_eq_getElem, List.get_eq_getElem, List.getElem_append, dif_pos hi]

theorem circuitInv_add_gate (c : Circuit) (g : Gate) (c' : Circuit)
    (hinv : CircuitInv c) (hok : c.add_gate g = PanicOr.ok c') : CircuitInv c' := by
  obtain ⟨ha, hb, hc, hn, hqa, hqm, hqc, hocc, hunocc, hqcz⟩ := hinv
  simp only [Circuit.add_gate] at hok
  by_cases hfull : c.gates.length ≥ c.n
  · rw [if_pos hfull] at hok
    exact PanicOr.noConfusion hok
  rw [if_neg hfull] at hok
  injection hok with hok
  subst hok
  have hlt : c.gates.length < c.n := by omega
  cases hgt : g.gate_type with
  | Add =>
    refine ⟨?_, ?_, ?_, ?_, ?_, ?_, ?_, ?_, ?_, ?_⟩
    · show (c.a ++ [g.left_wire.value]).length = (c.gates ++ [g]).length
      simp [ha]
    · show (c.b ++ [g.right_wire.value]).length = (c.gates ++ [g]).length
      simp [hb]
    · show (c.c ++ [g.output_wire.value]).length = (c.gates ++ [g]).length
      simp [hc]
    · show (c.gates ++ [g]).length ≤ c.n
      simp only [List.length_append, List.length_singleton]
      omega
    · show (c.selectors.q_add.set c.gates.length 1).length = c.n
      rw [List.length_set, hqa]
    · show c.selectors.q_mul.length = c.n
      exact hqm
    · show c.selectors.q_c.length = c.n
      exact hqc
    · intro i h
      have h' : i < c.gates.length + 1 := by simpa using h
      show (((c.gates ++ [g]).get ⟨i, h⟩).gate_type = GateType.Add →
          (c.selectors.q_add.set c.gates.length 1).getD i 0 = 1 ∧
          c.selectors.q_mul.getD i 0 = 0) ∧
        (((c.gates ++ [g]).get ⟨i, h⟩).gate_type = GateType.Mul →
          (c.selectors.q_add.set c.gates.length 1).getD i 0 = 0 ∧
          c.selectors.q_mul.getD i 0 = 1)
      by_cases hi : i < c.gates.length
      · rw [getElem_append_left' c.gates g i hi h]
        have hset : (c.selectors.q_add.set c.gates.length 1).getD i 0 =
            c.selectors.q_add.getD i 0 := getD_set_ne _ _ _ _ _ (by omega)
        rw [hset]
        exact hocc i hi
      · have hieq : i = c.gates.length := by omega
        subst hieq
        rw [getElem_append_right_singleton c.gates g h]
        constructor
        · intro _
          refine ⟨getD_set_self _ _ _ _ (by omega), (hunocc c.gates.length (le_refl _)).2⟩
        · intro hcontra
          rw [hgt] at hcontra
          exact GateType.noConfusion hcontra
    · intro i hge
      have hge' : c.gates.length + 1 ≤ i := by simpa using hge
      show (c.selectors.q_add.set c.gates.length 1).getD i 0 = 0 ∧
        c.selectors.q_mul.getD i 0 = 0
      have hset : (c.selectors.q_add.set c.gates.length 1).getD i 0 =
          c.selectors.q_add.getD i 0 := getD_set_ne _ _ _ _ _ (by omega)
      rw [hset]
      exact hunocc i (by omega)
    · intro i
      show c.selectors.q_c.getD i 0 = 0
      exact hqcz i
  | Mul =>
    refine ⟨?_, ?_, ?_, ?_, ?_, ?_, ?_, ?_, ?_, ?_⟩
    · show (c.a ++ [g.left_wire.value]).length = (c.gates ++ [g]).length
      simp [ha]
    · show (c.b ++ [g.right_wire.value]).length = (c.gates ++ [g]).length
      simp [hb]
    · show (c.c ++ [g.output_wire.value]).length = (c.gates ++ [g]).length
      simp [hc]
    · show (c.gates ++ [g]).length ≤ c.n
      simp only [List.length_append, List.length_singleton]
      omega
    · show c.selectors.q_add.length = c.n
      exact hqa
    · show (c.selectors.q_mul.set c.gates.length 1).length = c.n
      rw [List.length_set, hqm]
    · show c.selectors.q_c.length = c.n
      exact hqc
    · intro i h
      have h' : i < c.gates.length + 1 := by simpa using h
      show (((c.gates ++ [g]).get ⟨i, h⟩).gate_type = GateType.Add →
          c.selectors.q_add.getD i 0 = 1 ∧
          (c.selectors.q_mul.set c.gates.length 1).getD i 0 = 0) ∧
        (((c.gates ++ [g]).get ⟨i, h⟩).gate_type = GateType.Mul →
          c.selectors.q_add.getD i 0 = 0 ∧
          (c.selectors.q_mul.set c.gates.length 1).getD i 0 = 1)
      by_cases hi : i < c.gates.length
      · rw [getElem_append_left' c.gates g i hi h]
        have hset : (c.selectors.q_mul.set c.gates.length 1).getD i 0 =
            c.selectors.q_mul.getD i 0 := getD_set_ne _ _ _ _ _ (by omega)
        rw [hset]
        exact hocc i hi
      · have hieq : i = c.gates.length := by omega
        subst hieq
        rw [getElem_append_right_singleton c.gates g h]
        constructor
        · intro hcontra
          rw [hgt] at hcontra
          exact GateType.noConfusion hcontra
        · intro _
          refine ⟨(hunocc c.gates.length (le_refl _)).1, getD_set_self _ _ _ _ (by omega)⟩
    · intro i hge
      have hge' : c.gates.length + 1 ≤ i := by simpa using hge
      show c.selectors.q_add.getD i 0 = 0 ∧
        (c.selectors.q_mul.set c.gates.length 1).getD i 0 = 0
      have hset : (c.selectors.q_mul.set c.gates.length 1).getD i 0 =
          c.selectors.q_mul.getD i 0 := getD_set_ne _ _ _ _ _ (by omega)
      rw [hset]
      exact ⟨(hunocc i (by omega)).1, (hunocc i (by omega)).2⟩
    · intro i
      show c.selectors.q_c.getD i 0 = 0
      exact hqcz i

theorem addGateList_inv : ∀ (gs : List Gate) (c0 c : Circuit), CircuitInv c0 →
    Circuit.addGateList c0 gs = PanicOr.ok c → CircuitInv c := by
  intro gs
  induction gs with
  | nil =>
    intro c0 c h0 heq
    injection heq with heq
    subst heq
    exact h0
  | cons g gs ih =>
    intro c0 c h0 heq
    simp only [Circuit.addGateList] at heq
    cases hadd : c0.add_gate g with
    | ok c1 =>
      rw [hadd, PanicOr.bind_ok] at heq
      exact ih c1 c (circuitInv_add_gate c0 g c1 h0 hadd) heq
    | panicked m =>
      rw [hadd, PanicOr.bind_panicked] at heq
      exact PanicOr.noConfusion heq

/-- C8, circuit invariant: starting from `new(capacity)`, after any sequence
of successful `add_gate` calls the wire-value and gate sequences share a
common length bounded by the capacity, each occupied index has exactly the
selector of its gate's type set to the multiplicative identity (the other
being the additive identity), and every unoccupied selector entry and every
`q_c` entry is the additive identity. -/
theorem circuit_invariant (n : Nat) (gs : List Gate) (c : Circuit)
    (h : Circuit.addGateList (Circuit.new n) gs = PanicOr.ok c) : CircuitInv c :=
  addGateList_inv gs (Circuit.new n) c (circuitInv_new n) h

/-! ## Error propagation policy (C5)

Every malformed-input condition in the sources is handled by `panic!` /
`assert!` / `assert_eq!`, i.e. by process termination with a diagnostic
message — recorded in this embedding as the `PanicOr.panicked` outcome.  None
of the operations returns a recoverable error value to the caller. -/

instance : Fact (Nat.Prime 5) := ⟨by norm_num⟩

theorem add_gate_full_panics (c : Circuit) (g : Gate) (h : c.gates.length ≥ c.n) :
    c.add_gate g = PanicOr.panicked
      ("Circuit is full. Cannot add more than " ++ toString c.n ++ " gates.") := by
  simp only [Circuit.add_gate]
  rw [if_pos h]

/-- C5, error propagation policy (amended): each malformed-input condition —
a polynomial with more coefficients than the SRS passed to `commit`, a
non-power-of-two length passed to `fft`, mismatched lengths passed to
`interpolate`, and a gate appended to a full circuit — makes the operation
panic with a diagnostic message (process termination, modelled as the
`panicked` outcome), rather than return a distinct inspectable failure value
to the caller; `commit`'s condition moreover fires inside its accumulation
loop rather than at entry. -/
theorem error_policy_panics {K G1 G2 : Type} [Field K] [DecidableEq K]
    [AddCommGroup G1] [Module K G1]
    (params : KZGParams G1 G2) (poly coeffs evals domain : List K) (omega : K)
    (cir : Circuit) (g : Gate)
    (hcommit : params.powers_of_g.length < poly.length)
    (hfft : is_power_of_two coeffs.length = false)
    (hmm : evals.length ≠ domain.length)
    (hfull : cir.gates.length ≥ cir.n) :
    params.commit poly =
      PanicOr.panicked "Polynomial degree too large for parameters" ∧
    fft coeffs omega = PanicOr.panicked "Length must be a power of 2" ∧
    interpolate evals domain =
      PanicOr.panicked "Evaluation and domain size mismatch" ∧
    cir.add_gate g = PanicOr.panicked
      ("Circuit is full. Cannot add more than " ++ toString cir.n ++ " gates.") :=
  ⟨commit_panics params poly hcommit,
    fft_not_power_of_two_panics coeffs omega hfft,
    interpolate_mismatch_panics evals domain hmm,
    add_gate_full_panics cir g hfull⟩

/-- Concrete malformed inputs on which each operation ends in the `panicked`
outcome (process termination), refuting the policy that they are reported to
the caller as inspectable failure values. -/
theorem error_policy_counterexample :
    (KZGParams.setup (1 : ZMod 5) (1 : ZMod 5) (1 : ZMod 5) 0 :
        KZGParams (ZMod 5) (ZMod 5)).commit ([1, 1] : List (ZMod 5)) =
      PanicOr.panicked "Polynomial degree too large for parameters" ∧
    fft ([1, 1, 1] : List (ZMod 5)) 1 =
      PanicOr.panicked "Length must be a power of 2" ∧
    interpolate ([1] : List (ZMod 5)) ([] : List (ZMod 5)) =
      PanicOr.panicked "Evaluation and domain size mismatch" ∧
    (Circuit.new 0).add_gate
        { gate_type := GateType.Add,
          left_wire := { index := 0, value := 0 },
          right_wire := { index := 0, value := 0 },
          output_wire := { index := 0, value := 0 } } =
      PanicOr.panicked "Circuit is full. Cannot add more than 0 gates." := by
  refine ⟨by decide, ?_, ?_, by decide⟩
  · refine fft_not_power_of_two_panics _ _ ?_
    rw [show ([1, 1, 1] : List (ZMod 5)).length = 3 from rfl, is_power_of_two]
    norm_num
  · exact interpolate_mismatch_panics _ _ (by decide)

theorem error_policy_panics_witness :
    (KZGParams.setup (2 : ZMod 5) (3 : ZMod 5) (2 : ZMod 5) 1 :
        KZGParams (ZMod 5) (ZMod 5)).commit ([1, 2, 3, 4] : List (ZMod 5)) =
      PanicOr.panicked "Polynomial degree too large for parameters" ∧
    fft ([1, 2, 3] : List (ZMod 5)) 2 =
      PanicOr.panicked "Length must be a power of 2" ∧
    interpolate ([1, 2] : List (ZMod 5)) ([1] : List (ZMod 5)) =
      PanicOr.panicked "Evaluation and domain size mismatch" ∧
    (Circuit.new 0).add_gate
        { gate_type := GateType.Mul,
          left_wire := { index := 1, value := 2 },
          right_wire := { index := 2, value := 3 },
          output_wire := { index := 3, value := 1 } } =
      PanicOr.panicked
        ("Circuit is full. Cannot add more than " ++
          toString (Circuit.new 0).n ++ " gates.") :=
  error_policy_panics _ _ _ _ _ _ _ _ (by decide)
    (by rw [show ([1, 2, 3] : List (ZMod 5)).length = 3 from rfl, is_power_of_two]
        norm_num)
    (by decide) (by decide)

/-! ## Concrete instantiations

Small concrete instances — scalars and groups in `ZMod 5` with the pairing
`e a b = a * b`, the repository's own FFT test vector `[1, 1, 0, 0]` with a
primitive 4th root of unity, and small concrete circuits — exercising each
theorem above on computable inputs. -/

theorem two_is_primitive_root_four : IsPrimitiveRoot (2 : ZMod 5) 4 := by
  rw [IsPrimitiveRoot.iff (show 0 < 4 by norm_num)]
  refine ⟨by decide, ?_⟩
  intro l hl hl'
  interval_cases l <;> decide

theorem kzg_completeness_witness :
    ∃ C pf v, (KZGParams.setup (1 : ZMod 5) (1 : ZMod 5) (2 : ZMod 5) 5).commit
        ([3, 2, 1] : List (ZMod 5)) = PanicOr.ok C ∧
      KZGParams.open' (KZGParams.setup (1 : ZMod 5) (1 : ZMod 5) (2 : ZMod 5) 5)
        ([3, 2, 1] : List (ZMod 5)) 2 = PanicOr.ok (pf, v) ∧
      KZGParams.verify (fun a b => a * b : ZMod 5 → ZMod 5 → ZMod 5)
        (KZGParams.setup (1 : ZMod 5) (1 : ZMod 5) (2 : ZMod 5) 5) C pf 2 v = true :=
  kzg_completeness (fun a b => a * b : ZMod 5 → ZMod 5 → ZMod 5) 1 1
    (by intro a b P Q; simp only [smul_eq_mul]; ring) 2 2 5 [3, 2, 1] (by decide)

theorem kzg_soundness_neg_witness :
    KZGParams.verify (fun a b => a * b : ZMod 5 → ZMod 5 → ZMod 5)
      (KZGParams.setup (1 : ZMod 5) (1 : ZMod 5) (2 : ZMod 5) 5) 1 1
      (2 : ZMod 5) (2 : ZMod 5) = false :=
  kzg_soundness_neg (fun a b => a * b : ZMod 5 → ZMod 5 → ZMod 5) 1 1
    (by intro a b P Q; simp only [smul_eq_mul]; ring) (by decide)
    2 2 5 [3, 2, 1] (by decide) 2 (by decide) 1 1 1 (by decide) (by decide)

theorem kzg_srs_shape_witness :
    (KZGParams.setup (1 : ZMod 5) (1 : ZMod 5) (2 : ZMod 5) 1).powers_of_g.length = 1 + 1 ∧
    (∀ i, i ≤ 1 →
      (KZGParams.setup (1 : ZMod 5) (1 : ZMod 5) (2 : ZMod 5) 1).powers_of_g.getD i 0 =
        (2 : ZMod 5) ^ i • (1 : ZMod 5)) ∧
    (KZGParams.setup (1 : ZMod 5) (1 : ZMod 5) (2 : ZMod 5) 1).powers_of_g.getD 0 0 =
      (1 : ZMod 5) ∧
    (KZGParams.setup (1 : ZMod 5) (1 : ZMod 5) (2 : ZMod 5) 1).g2 = (1 : ZMod 5) ∧
    (KZGParams.setup (1 : ZMod 5) (1 : ZMod 5) (2 : ZMod 5) 1).g2_s =
      (2 : ZMod 5) • (1 : ZMod 5) ∧
    (1 ≤ 1 →
      (fun a b => a * b : ZMod 5 → ZMod 5 → ZMod 5)
        ((KZGParams.setup (1 : ZMod 5) (1 : ZMod 5) (2 : ZMod 5) 1).powers_of_g.getD 1 0)
        (KZGParams.setup (1 : ZMod 5) (1 : ZMod 5) (2 : ZMod 5) 1).g2 =
      (fun a b => a * b : ZMod 5 → ZMod 5 → ZMod 5)
        ((KZGParams.setup (1 : ZMod 5) (1 : ZMod 5) (2 : ZMod 5) 1).powers_of_g.getD 0 0)
        (KZGParams.setup (1 : ZMod 5) (1 : ZMod 5) (2 : ZMod 5) 1).g2_s) :=
  kzg_srs_shape (fun a b => a * b : ZMod 5 → ZMod 5 → ZMod 5) 1 1
    (by intro a b P Q; simp only [smul_eq_mul]; ring) 2 1

theorem fft_ifft_roundtrip_witness :
    ∃ evals, fft ([1, 1, 0, 0] : List (ZMod 5)) 2 = PanicOr.ok evals ∧
      ifft evals (2 : ZMod 5)⁻¹ = PanicOr.ok [1, 1, 0, 0] :=
  fft_ifft_roundtrip [1, 1, 0, 0] 2 2 (by decide)
    (by rw [show ([1, 1, 0, 0] : List (ZMod 5)).length = 4 from rfl]
        exact two_is_primitive_root_four)

theorem fft_evaluation_order_witness :
    ∃ out, fft ([1, 1, 0, 0] : List (ZMod 5)) 2 = PanicOr.ok out ∧
      out.length = ([1, 1, 0, 0] : List (ZMod 5)).length ∧
      ∀ i, i < ([1, 1, 0, 0] : List (ZMod 5)).length →
        out.getD i 0 = evalPoly ([1, 1, 0, 0] : List (ZMod 5)) ((2 : ZMod 5) ^ i) :=
  fft_evaluation_order [1, 1, 0, 0] 2 2 (by decide)
    (by rw [show ([1, 1, 0, 0] : List (ZMod 5)).length = 4 from rfl]
        exact two_is_primitive_root_four)

theorem interpolate_small_input_oob_witness :
    interpolate ([3] : List (ZMod 5)) ([2] : List (ZMod 5)) =
      PanicOr.panicked "index out of bounds" :=
  interpolate_small_input_oob [3] [2] (by decide) (by decide)

def gateAdd123 : Gate :=
  { gate_type := GateType.Add,
    left_wire := { index := 0, value := 1 },
    right_wire := { index := 1, value := 2 },
    output_wire := { index := 2, value := 3 } }

def gateMul236 : Gate :=
  { gate_type := GateType.Mul,
    left_wire := { index := 3, value := 2 },
    right_wire := { index := 4, value := 3 },
    output_wire := { index := 5, value := 6 } }

def exampleCircuit : Circuit :=
  { n := 2
    a := [1, 2]
    b := [2, 3]
    c := [3, 6]
    gates := [gateAdd123, gateMul236]
    selectors := { q_add := [1, 0], q_mul := [0, 1], q_c := [0, 0] } }

theorem verify_constraints_iff_witness :
    ∃ bres, exampleCircuit.verify_constraints = PanicOr.ok bres ∧
      (bres = true ↔ ∀ i, (h : i < exampleCircuit.gates.length) →
        gateOk (exampleCircuit.a.getD i 0) (exampleCircuit.b.getD i 0)
          (exampleCircuit.c.getD i 0)
          (exampleCircuit.gates.get ⟨i, h⟩).gate_type) :=
  verify_constraints_iff exampleCircuit (by decide) (by decide) (by decide)

theorem add_gate_capacity_boundary_witness :
    ((∃ m, (Circuit.new 1).add_gate gateAdd123 = PanicOr.panicked m) ↔
      (Circuit.new 1).gates.length = (Circuit.new 1).n) ∧
    (∀ c', (Circuit.new 1).add_gate gateAdd123 = PanicOr.ok c' →
      c'.a = (Circuit.new 1).a ++ [gateAdd123.left_wire.value] ∧
      c'.b = (Circuit.new 1).b ++ [gateAdd123.right_wire.value] ∧
      c'.c = (Circuit.new 1).c ++ [gateAdd123.output_wire.value] ∧
      c'.gates = (Circuit.new 1).gates ++ [gateAdd123] ∧
      c'.n = (Circuit.new 1).n) :=
  add_gate_capacity_boundary (Circuit.new 1) gateAdd123 (by decide)

def exampleCircuitOne : Circuit :=
  { n := 3
    a := [1]
    b := [2]
    c := [3]
    gates := [gateAdd123]
    selectors := { q_add := [1, 0, 0], q_mul := [0, 0, 0], q_c := [0, 0, 0] } }

theorem circuit_invariant_witness : CircuitInv exampleCircuitOne :=
  circuit_invariant 3 [gateAdd123] exampleCircuitOne (by decide)
